import Mathlib

/-
  Verification of the leakcheck analyzer (leakcheck.go).

  Shallow embedding conventions:
  * Go strings are modelled as lists of characters (`Str`).
  * The Go regexp package is an external collaborator; it is modelled by an
    abstract `RegexOracle` mapping a pattern string to either a compiled
    matcher or a compilation failure (`none`).  The process-wide compiled
    pattern cache of the source is a pure performance optimisation (spec 4.3)
    with deterministic lookups, so it is elided.
  * The go/ast syntax trees handed over by the analysis framework are modelled
    by the `Node` inductive, which distinguishes exactly the node kinds the
    ast.Inspect switch in processFileForAnalysis distinguishes.
  * The timeout context is modelled by `Ctx`: `none` never expires, `some n`
    reports Done from the n-th cooperative poll onwards; polls are numbered in
    the order the source checks ctx.Done().
-/

abbrev Str := List Char

/-- Go strings.HasPrefix. -/
def strStartsWith : Str → Str → Bool
  | _, [] => true
  | [], _ :: _ => false
  | c :: s, p :: ps => c == p && strStartsWith s ps

/-- Go strings.HasSuffix. -/
def strEndsWith (s p : Str) : Bool := strStartsWith s.reverse p.reverse

/-- Go strings.Contains. -/
def strContains : Str → Str → Bool
  | [], sub => strStartsWith [] sub
  | c :: t, sub => strStartsWith (c :: t) sub || strContains t sub

/-- Go unicode.IsSpace: the Unicode White_Space code points. -/
def goIsSpace (c : Char) : Bool :=
  (0x09 ≤ c.toNat && c.toNat ≤ 0x0d) || c.toNat == 0x20 || c.toNat == 0x85 ||
  c.toNat == 0xa0 || c.toNat == 0x1680 || (0x2000 ≤ c.toNat && c.toNat ≤ 0x200a) ||
  c.toNat == 0x2028 || c.toNat == 0x2029 || c.toNat == 0x202f ||
  c.toNat == 0x205f || c.toNat == 0x3000

def dropWhileSpace : Str → Str
  | [] => []
  | c :: t => if goIsSpace c then dropWhileSpace t else c :: t

/-- Go strings.TrimSpace. -/
def trimSpace (s : Str) : Str :=
  (dropWhileSpace (dropWhileSpace s).reverse).reverse

/-- Go strings.Split(s, ",") specialised to the single-character separator used
by matchesAnyPattern. -/
def splitComma : Str → List Str
  | [] => [[]]
  | c :: t =>
    if c == ',' then [] :: splitComma t
    else
      match splitComma t with
      | [] => [[c]]
      | p :: ps => (c :: p) :: ps

/-- The character set of containsSpecialChars in the source:
".*+?^$" followed by both braces, "()[]|" and a backslash. -/
def specialChars : Str :=
  ['.', '*', '+', '?', '^', '$', '\x7b', '\x7d', '(', ')', '[', ']', '|', '\\']

/-- containsSpecialChars: strings.ContainsAny with the character set above. -/
def containsSpecialChars (pattern : Str) : Bool :=
  pattern.any (fun c => specialChars.contains c)

/-- The character set matched by the switch in containsRegexMetachars:
every special character except the wildcard. -/
def regexMetachars : Str :=
  ['.', '^', '$', '+', '?', '[', ']', '(', ')', '\x7b', '\x7d', '|', '\\']

/-- containsRegexMetachars from the source. -/
def containsRegexMetachars (pattern : Str) : Bool :=
  pattern.any (fun c => regexMetachars.contains c)

/-- Go regexp.QuoteMeta: escape every regexp special byte with a backslash.
The escaped set coincides with `specialChars`. -/
def quoteMeta : Str → Str
  | [] => []
  | c :: t =>
    if specialChars.contains c then '\\' :: c :: quoteMeta t
    else c :: quoteMeta t

/-- Go strings.ReplaceAll, leftmost non-overlapping occurrences.  The source
only invokes it with the nonempty pattern backslash-star; for an empty pattern
this model keeps the string unchanged (Go would interleave, but that case is
never reached). -/
def replaceAll : Str → Str → Str → Str
  | [], _, _ => []
  | c :: t, pat, rep =>
    if pat.isEmpty then c :: replaceAll t pat rep
    else if pat.isPrefixOf (c :: t) then rep ++ replaceAll ((c :: t).drop pat.length) pat rep
    else c :: replaceAll t pat rep
  termination_by s _ _ => s.length
  decreasing_by
    · simp
    · rename_i hne _
      simp only [List.length_drop, List.length_cons]
      have : 1 ≤ pat.length := by
        cases pat with
        | nil => simp at hne
        | cons a l => simp
      omega
    · simp

/-- Abstract model of the Go regexp collaborator: compiling a pattern either
fails or yields a MatchString function. -/
structure RegexOracle where
  compile : Str → Option (Str → Bool)

/-- The anchored regex text built by matchGlobPattern:
"^" + ReplaceAll(QuoteMeta(pattern), backslash-star, dot-star) + "$". -/
def globRegexOf (pattern : Str) : Str :=
  '^' :: (replaceAll (quoteMeta pattern) ['\\', '*'] ['.', '*'] ++ ['$'])

/-- matchGlobPattern from the source (cache elided, see header). -/
def matchGlobPattern (o : RegexOracle) (str pattern : Str) : Bool :=
  match o.compile (globRegexOf pattern) with
  | none => false
  | some m => m str

/-- matchRegexPattern from the source (cache elided, see header). -/
def matchRegexPattern (o : RegexOracle) (str pattern : Str) : Bool :=
  match o.compile pattern with
  | none => false
  | some m => m str

/-- matchesPattern from the source. -/
def matchesPattern (o : RegexOracle) (str pattern : Str) : Bool :=
  if str == pattern then true
  else if pattern == [] then false
  else if !containsSpecialChars pattern then strContains str pattern
  else if strContains pattern ['*'] && !containsRegexMetachars pattern then
    matchGlobPattern o str pattern
  else matchRegexPattern o str pattern

/-- matchesAnyPattern from the source: a comma-free list is trimmed and tried
as one pattern, otherwise each comma-separated component is trimmed and empty
components are skipped. -/
def matchesAnyPattern (o : RegexOracle) (str patterns : Str) : Bool :=
  if patterns == [] then false
  else if !strContains patterns [','] then matchesPattern o str (trimSpace patterns)
  else
    (splitComma patterns).any (fun p =>
      let q := trimSpace p
      !q.isEmpty && matchesPattern o str q)

/-- Configuration of the analyzer (Config in the source).  Concurrency and
Timeout drive scheduling and the deadline; they are modelled by the explicit
permutation argument of the scheduler theorems and by `Ctx`. -/
structure Config where
  excludePackages : Str
  excludeFiles : Str
  concurrency : Int
  timeout : Int

/-- The part of s after the last occurrence of c (s itself when c is absent):
models the strings.LastIndex slicing in shouldExcludeFileWithConfig. -/
def afterLastChar (c : Char) : Str → Str
  | [] => []
  | x :: t =>
    if t.contains c then afterLastChar c t
    else if x == c then t
    else x :: t

/-- shouldExcludePackage from the source. -/
def shouldExcludePackage (o : RegexOracle) (pkgPath : Str) (config : Config) : Bool :=
  if config.excludePackages.isEmpty then false
  else matchesAnyPattern o pkgPath config.excludePackages

/-- shouldExcludeFileWithConfig from the source: the full path and the bare
filename (stripped of both directory separator conventions) are both tried. -/
def shouldExcludeFileWithConfig (o : RegexOracle) (filename : Str) (config : Config) : Bool :=
  let justFilename := afterLastChar '\\' (afterLastChar '/' filename)
  if !config.excludeFiles.isEmpty then
    matchesAnyPattern o filename config.excludeFiles ||
      matchesAnyPattern o justFilename config.excludeFiles
  else false

/-- The X part of an ast.SelectorExpr: an identifier or anything else. -/
inductive XExpr where
  | xIdent (name : Str)
  | xOther
deriving DecidableEq

/-- ast.SelectorExpr: X.Sel. -/
structure SelectorExpr where
  x : XExpr
  sel : Str
deriving DecidableEq

/-- The function position of a call (ast.CallExpr.Fun, ast.DeferStmt.Call.Fun):
the analyzer only looks at whether it is a selector expression. -/
inductive FunExpr where
  | selector (s : SelectorExpr)
  | nonSelector
deriving DecidableEq

/-- The node kinds distinguished by the ast.Inspect switch in
processFileForAnalysis.  `children` are the sub-nodes that ast.Inspect visits
after the node itself (pre-order); every other construct is `otherNode`.
A funcDecl with name `none` models a declaration whose Name field is nil. -/
inductive Node where
  | funcDecl (name : Option Str) (pos : Nat) (children : List Node)
  | funcLit (children : List Node)
  | callExpr (fn : FunExpr) (children : List Node)
  | deferStmt (fn : FunExpr) (children : List Node)
  | otherNode (children : List Node)

/-- ast.ImportSpec: optional explicit galias, and the quoted Path literal text
(`none` models a nil Path). -/
structure ImportSpec where
  name : Option Str
  pathValue : Option Str
deriving DecidableEq

/-- One parsed file of the compilation unit, with the filename resolved from
its position (pass.Fset.Position(file.Pos()).Filename). -/
structure File where
  filename : Str
  imports : List ImportSpec
  decls : List Node

/-- The compilation unit handed to run: pass.Files plus pass.Pkg.Path(). -/
structure Pass where
  pkgPath : Str
  files : List File

def goleakUberPath : Str := "\"go.uber.org/goleak\"".toList
def goleakGithubPath : Str := "\"github.com/uber-go/goleak\"".toList
def defaultAlias : Str := "goleak".toList
def verifyTestMain : Str := "VerifyTestMain".toList
def verifyNone : Str := "VerifyNone".toList
def testPrefix : Str := "Test".toList
def testMainFunc : Str := "TestMain".toList
def testFileSuffix : Str := "_test.go".toList

/-- isTestFile from the source. -/
def isTestFile (filename : Str) : Bool := strEndsWith filename testFileSuffix

/-- isTestFunction from the source. -/
def isTestFunction (name : Str) : Bool :=
  strStartsWith name testPrefix && !(name == testMainFunc)

/-- isGoleakCall from the source. -/
def isGoleakCall (sel : SelectorExpr) (method galias : Str) : Bool :=
  if !(sel.sel == method) then false
  else
    match sel.x with
    | .xIdent nm => nm == galias
    | .xOther => false

/-- The import test of getGoleakAlias: Path is non-nil and its literal text is
one of the two recognised goleak paths. -/
def importMatchesGoleak (imp : ImportSpec) : Bool :=
  match imp.pathValue with
  | some v => v == goleakUberPath || v == goleakGithubPath
  | none => false

/-- The inner loop of getGoleakAlias over one file's imports. -/
def getGoleakAliasImports : List ImportSpec → Option Str
  | [] => none
  | imp :: rest =>
    if importMatchesGoleak imp then
      some (match imp.name with
        | some nm => nm
        | none => defaultAlias)
    else getGoleakAliasImports rest

/-- getGoleakAlias from the source.  (The early continue on files with no
imports has no semantic effect.) -/
def getGoleakAlias : List File → Str
  | [] => []
  | f :: rest =>
    match getGoleakAliasImports f.imports with
    | some a => a
    | none => getGoleakAlias rest

/-- testFuncInfo from the source. -/
structure TestFuncInfo where
  name : Str
  pos : Nat
  filename : Str
deriving DecidableEq

/-- analysisResult from the source.  funcsCoveredByDefer is a Go
map[string]bool holding `true` values; it is modelled as the list of inserted
keys, with membership as lookup. -/
structure AnalysisResult where
  hasTestMain : Bool
  hasVerifyTestMain : Bool
  testFuncs : List TestFuncInfo
  funcsCoveredByDefer : List Str
deriving DecidableEq

def emptyAnalysisResult : AnalysisResult := ⟨false, false, [], []⟩

/-- The mutable traversal state of processFileForAnalysis: the two local
variables plus the result being built. -/
structure ExtractState where
  currentTestFunc : Str
  inTestMain : Bool
  res : AnalysisResult

/-- The FuncDecl case of the ast.Inspect switch: both context variables are
reset, then set according to the declared name; test functions are recorded. -/
def stepFuncDecl (filename : Str) (st : ExtractState) (name : Option Str) (pos : Nat) :
    ExtractState :=
  match name with
  | none => st
  | some funcName =>
    let st' : ExtractState := { st with currentTestFunc := [], inTestMain := false }
    if funcName == testMainFunc then
      { st' with inTestMain := true, res := { st'.res with hasTestMain := true } }
    else if isTestFunction funcName then
      { st' with
          currentTestFunc := funcName,
          res := { st'.res with testFuncs := st'.res.testFuncs ++ [⟨funcName, pos, filename⟩] } }
    else st'

/-- The CallExpr case of the ast.Inspect switch. -/
def stepCallExpr (galias : Str) (st : ExtractState) (fn : FunExpr) : ExtractState :=
  match fn with
  | .selector sel =>
    if st.inTestMain && isGoleakCall sel verifyTestMain galias then
      { st with res := { st.res with hasVerifyTestMain := true } }
    else st
  | .nonSelector => st

/-- The DeferStmt case of the ast.Inspect switch. -/
def stepDeferStmt (galias : Str) (st : ExtractState) (fn : FunExpr) : ExtractState :=
  if !st.currentTestFunc.isEmpty then
    match fn with
    | .selector sel =>
      if isGoleakCall sel verifyNone galias then
        { st with res := { st.res with
            funcsCoveredByDefer := st.res.funcsCoveredByDefer ++ [st.currentTestFunc] } }
      else st
    | .nonSelector => st
  else st

mutual
/-- One ast.Inspect visit: handle the node, then its children, carrying the
mutable state across the whole pre-order traversal (the source never restores
state on exit). -/
def walkNode (galias filename : Str) (st : ExtractState) : Node → ExtractState
  | .funcDecl name pos children =>
    walkList galias filename (stepFuncDecl filename st name pos) children
  | .funcLit children => walkList galias filename st children
  | .callExpr fn children => walkList galias filename (stepCallExpr galias st fn) children
  | .deferStmt fn children => walkList galias filename (stepDeferStmt galias st fn) children
  | .otherNode children => walkList galias filename st children

def walkList (galias filename : Str) (st : ExtractState) : List Node → ExtractState
  | [] => st
  | n :: ns => walkList galias filename (walkNode galias filename st n) ns
end

/-- processFileForAnalysis from the source: non-test files contribute an empty
result, otherwise the whole file tree is traversed. -/
def processFileForAnalysis (file : File) (galias : Str) : AnalysisResult :=
  if !isTestFile file.filename then emptyAnalysisResult
  else (walkList galias file.filename ⟨[], false, emptyAnalysisResult⟩ file.decls).res

/-- mergeResults from the source (flag updates written as boolean or, list and
map accumulation as append). -/
def mergeResults (result localResult : AnalysisResult) : AnalysisResult :=
  { hasTestMain := result.hasTestMain || localResult.hasTestMain,
    hasVerifyTestMain := result.hasVerifyTestMain || localResult.hasVerifyTestMain,
    testFuncs := result.testFuncs ++ localResult.testFuncs,
    funcsCoveredByDefer := result.funcsCoveredByDefer ++ localResult.funcsCoveredByDefer }

/-- The merged extraction over a unit, in the given file order.  This is
analyzeTestFunctionsSequential without the deadline checks; it is also the
semantics of the concurrent path of analyzeTestFunctionsWithContext once the
completion order of the workers is fixed as a permutation of the file order
(spec section 5: merge order is the order workers happen to finish). -/
def analyzeTestFunctionsPure (galias : Str) (files : List File) : AnalysisResult :=
  files.foldl (fun acc f => mergeResults acc (processFileForAnalysis f galias)) emptyAnalysisResult

/-- hasNonExcludedTestFiles from the source. -/
def hasNonExcludedTestFiles (o : RegexOracle) (p : Pass) (config : Config) : Bool :=
  p.files.any (fun f => isTestFile f.filename && !shouldExcludeFileWithConfig o f.filename config)

/-- The deadline context: `none` never expires, `some n` is Done from the n-th
cooperative poll onwards (polls are numbered in program order, so Done is
monotone, as for a real deadline). -/
abbrev Ctx := Option Nat

def ctxDoneAt (ctx : Ctx) (i : Nat) : Bool :=
  match ctx with
  | none => false
  | some n => decide (n ≤ i)

/-- A diagnostic sent to pass.Reportf. -/
structure Diagnostic where
  pos : Nat
  msg : Str
deriving DecidableEq

/-- The value/error pair run returns to the framework. -/
inductive RunOutcome where
  | ok
  | ctxErr
deriving DecidableEq

/-- The literal diagnostic template
"test function %s is not covered by goleak (%s)". -/
def diagMsg (name reason : Str) : Str :=
  "test function ".toList ++ name ++ " is not covered by goleak (".toList ++ reason ++ [')']

def msgNotImported : Str := "goleak not imported".toList

def msgMissingDefer : Str := "missing defer goleak.VerifyNone(t)".toList

def msgTestMainNoVerify : Str :=
  "TestMain exists but doesn".toList ++ ['\x27'] ++ "t call goleak.VerifyTestMain".toList

/-- The per-test-function reporting loop at the end of run, with its per
iteration ctx poll (poll number c for the first element). -/
def reportLoopCtx (o : RegexOracle) (ctx : Ctx) (config : Config) (hasTM hasVTM : Bool)
    (covered : List Str) : Nat → List TestFuncInfo → List Diagnostic × RunOutcome
  | _, [] => ([], .ok)
  | c, tf :: rest =>
    if ctxDoneAt ctx c then ([], .ctxErr)
    else
      let r := reportLoopCtx o ctx config hasTM hasVTM covered (c + 1) rest
      if covered.contains tf.name then r
      else
        let reason := if hasTM && !hasVTM then msgTestMainNoVerify else msgMissingDefer
        if !shouldExcludeFileWithConfig o tf.filename config then
          (⟨tf.pos, diagMsg tf.name reason⟩ :: r.1, r.2)
        else r

mutual
/-- All FuncDecl nodes of a tree in pre-order: the node sequence the framework
inspector hands to the Preorder callback of
reportUncoveredTestFunctionsWithContext. -/
def funcDeclsNode : Node → List (Option Str × Nat)
  | .funcDecl name pos children => (name, pos) :: funcDeclsList children
  | .funcLit children => funcDeclsList children
  | .callExpr _ children => funcDeclsList children
  | .deferStmt _ children => funcDeclsList children
  | .otherNode children => funcDeclsList children

def funcDeclsList : List Node → List (Option Str × Nat)
  | [] => []
  | n :: ns => funcDeclsNode n ++ funcDeclsList ns
end

/-- Every FuncDecl of the unit, across all files in file order, each paired
with the filename its position resolves to.  Note: every file is walked,
whether or not it is a test file. -/
def passFuncDecls (p : Pass) : List (Option Str × Nat × Str) :=
  p.files.foldr
    (fun f acc => (funcDeclsList f.decls).map (fun q => (q.1, q.2, f.filename)) ++ acc) []

/-- The Preorder callback loop of reportUncoveredTestFunctionsWithContext,
with its per-node ctx poll.  Once the context is Done the callback returns
early for the current and (Done being monotone) every later node, so the
remainder contributes nothing.  A declaration with a nil name is not a test
function (spec section 7: malformed constructs are locally skipped). -/
def reportWalkCtx (o : RegexOracle) (ctx : Ctx) (config : Config) (reason : Str) :
    Nat → List (Option Str × Nat × Str) → List Diagnostic
  | _, [] => []
  | c, fd :: rest =>
    if ctxDoneAt ctx c then []
    else
      let ds := reportWalkCtx o ctx config reason (c + 1) rest
      match fd.1 with
      | some nm =>
        if isTestFunction nm && !shouldExcludeFileWithConfig o fd.2.2 config then
          ⟨fd.2.1, diagMsg nm reason⟩ :: ds
        else ds
      | none => ds

/-- reportUncoveredTestFunctionsWithContext from the source.  The opening
select either observes Done (returning ctx.Err()) or acquires the semaphore;
the walk itself never turns an expiry into an error. -/
def reportUncoveredTestFunctionsWithContext (o : RegexOracle) (ctx : Ctx) (c : Nat)
    (p : Pass) (config : Config) (reason : Str) : List Diagnostic × RunOutcome :=
  if ctxDoneAt ctx c then ([], .ctxErr)
  else (reportWalkCtx o ctx config reason (c + 1) (passFuncDecls p), .ok)

/-- analyzeTestFunctionsSequential from the source: one ctx poll per file
(poll number c for the first file), `none` when the deadline fired. -/
def analyzeSeqCtx (ctx : Ctx) (galias : Str) :
    Nat → AnalysisResult → List File → Option (AnalysisResult × Nat)
  | c, acc, [] => some (acc, c)
  | c, acc, f :: rest =>
    if ctxDoneAt ctx c then none
    else analyzeSeqCtx ctx galias (c + 1) (mergeResults acc (processFileForAnalysis f galias)) rest

/-- run from the source.  Poll numbering: 0 for the select before the
exclusion checks, 1 for the select before the analysis (or for the semaphore
select of the no-import path), then one poll per file, then one poll per
recorded test function.  The concurrent branch taken above three files is
modelled by the same per-file fold; the scheduler theorems show the merged
result and the diagnostic set do not depend on the merge order. -/
def run (o : RegexOracle) (ctx : Ctx) (config : Config) (p : Pass) :
    List Diagnostic × RunOutcome :=
  if p.files.isEmpty then ([], .ok)
  else if ctxDoneAt ctx 0 then ([], .ctxErr)
  else if shouldExcludePackage o p.pkgPath config then ([], .ok)
  else if !hasNonExcludedTestFiles o p config then ([], .ok)
  else
    let goleakAlias := getGoleakAlias p.files
    if goleakAlias.isEmpty then
      reportUncoveredTestFunctionsWithContext o ctx 1 p config msgNotImported
    else if ctxDoneAt ctx 1 then ([], .ctxErr)
    else
      match analyzeSeqCtx ctx goleakAlias 2 emptyAnalysisResult p.files with
      | none => ([], .ctxErr)
      | some (result, c) =>
        if result.hasTestMain && result.hasVerifyTestMain then ([], .ok)
        else
          reportLoopCtx o ctx config result.hasTestMain result.hasVerifyTestMain
            result.funcsCoveredByDefer c result.testFuncs

mutual
/-- The RegularTest declarations of a tree in pre-order, as recorded by the
FuncDecl case of the extraction walk. -/
def collectTestsNode (filename : Str) : Node → List TestFuncInfo
  | .funcDecl name pos children =>
    (match name with
      | some nm => if isTestFunction nm then [⟨nm, pos, filename⟩] else []
      | none => []) ++ collectTestsList filename children
  | .funcLit children => collectTestsList filename children
  | .callExpr _ children => collectTestsList filename children
  | .deferStmt _ children => collectTestsList filename children
  | .otherNode children => collectTestsList filename children

def collectTestsList (filename : Str) : List Node → List TestFuncInfo
  | [] => []
  | n :: ns => collectTestsNode filename n ++ collectTestsList filename ns
end

mutual
/-- Whether a tree declares a function named TestMain (pre-order). -/
def hasTestMainDeclNode : Node → Bool
  | .funcDecl name _ children =>
    (match name with
      | some nm => nm == testMainFunc
      | none => false) || hasTestMainDeclList children
  | .funcLit children => hasTestMainDeclList children
  | .callExpr _ children => hasTestMainDeclList children
  | .deferStmt _ children => hasTestMainDeclList children
  | .otherNode children => hasTestMainDeclList children

def hasTestMainDeclList : List Node → Bool
  | [] => false
  | n :: ns => hasTestMainDeclNode n || hasTestMainDeclList ns
end

mutual
/-- Whether a tree contains no FuncDecl node at all.  Go function bodies never
contain function declarations (only function literals), so this holds of every
body tree handed over by the parser. -/
def nodeHasNoFuncDecl : Node → Bool
  | .funcDecl _ _ _ => false
  | .funcLit children => listHasNoFuncDecl children
  | .callExpr _ children => listHasNoFuncDecl children
  | .deferStmt _ children => listHasNoFuncDecl children
  | .otherNode children => listHasNoFuncDecl children

def listHasNoFuncDecl : List Node → Bool
  | [] => true
  | n :: ns => nodeHasNoFuncDecl n && listHasNoFuncDecl ns
end

mutual
/-- Whether a tree contains a call expression whose function position is the
selector galias.VerifyTestMain (pre-order). -/
def nodeHasVerifyCall (galias : Str) : Node → Bool
  | .funcDecl _ _ children => listHasVerifyCall galias children
  | .funcLit children => listHasVerifyCall galias children
  | .callExpr fn children =>
    (match fn with
      | .selector sel => isGoleakCall sel verifyTestMain galias
      | .nonSelector => false) || listHasVerifyCall galias children
  | .deferStmt _ children => listHasVerifyCall galias children
  | .otherNode children => listHasVerifyCall galias children

def listHasVerifyCall (galias : Str) : List Node → Bool
  | [] => false
  | n :: ns => nodeHasVerifyCall galias n || listHasVerifyCall galias ns
end

/-- A top-level declaration of the file is a function named exactly TestMain
whose body contains a call to galias.VerifyTestMain.  The body is additionally
required to contain no function declaration, which is true of every Go
function body (declarations cannot nest). -/
def fileHasTestMainWithVerify (galias : Str) (f : File) : Bool :=
  f.decls.any (fun n =>
    match n with
    | .funcDecl (some name) _ body =>
      name == testMainFunc && listHasNoFuncDecl body && listHasVerifyCall galias body
    | _ => false)

/-- Whether any file of the unit declares a function with the given name. -/
def unitContainsFuncNamed (p : Pass) (nm : Str) : Bool :=
  (passFuncDecls p).any (fun q => q.1 == some nm)

/-- Glob translation as claim C6 words it: escape every character other than
the wildcard, replace the wildcard by "any sequence". -/
def specGlobBody : Str → Str
  | [] => []
  | c :: t =>
    (if c == '*' then ['.', '*']
     else if specialChars.contains c then ['\\', c]
     else [c]) ++ specGlobBody t

/-- The spec-side glob regex: the escaped body anchored to the full candidate. -/
def specGlobRegex (pattern : Str) : Str :=
  '^' :: (specGlobBody pattern ++ ['$'])

/-- Glob matching as the claim describes it, over the same regexp oracle. -/
def claimMatchGlob (o : RegexOracle) (str pattern : Str) : Bool :=
  match o.compile (specGlobRegex pattern) with
  | none => false
  | some m => m str

/-- The per-pattern policy exactly as claim C6 states it: exact equality
first; substring containment when the pattern has no regex metacharacter and
no wildcard; an anchored glob when it has the wildcard and no other
metacharacter; otherwise the raw pattern as an unanchored regex search.  The
claim makes no special case for an empty pattern. -/
def claimMatchesPattern (o : RegexOracle) (str pattern : Str) : Bool :=
  if str == pattern then true
  else if !containsRegexMetachars pattern && !strContains pattern ['*'] then
    strContains str pattern
  else if strContains pattern ['*'] && !containsRegexMetachars pattern then
    claimMatchGlob o str pattern
  else matchRegexPattern o str pattern

/-- Pattern-list matching exactly as claim C6 states it: split on commas, trim
each component, true iff some component matches; an empty pattern list yields
false. -/
def claimMatchesAnyPattern (o : RegexOracle) (str patterns : Str) : Bool :=
  if patterns == [] then false
  else (splitComma patterns).any (fun p => claimMatchesPattern o str (trimSpace p))

/-- The per-pattern policy of claim C6 amended: a pattern that is empty (after
trimming) matches only by exact equality — it never reaches the substring,
glob or regex cases. -/
def amendedMatchesPattern (o : RegexOracle) (str pattern : Str) : Bool :=
  if str == pattern then true
  else if pattern == [] then false
  else if !containsRegexMetachars pattern && !strContains pattern ['*'] then
    strContains str pattern
  else if strContains pattern ['*'] && !containsRegexMetachars pattern then
    claimMatchGlob o str pattern
  else matchRegexPattern o str pattern

/-- Pattern-list matching of claim C6 amended: when the list contains a comma,
components that trim to empty are skipped entirely; a comma-free list is
trimmed and evaluated as one pattern under the amended per-pattern policy. -/
def amendedMatchesAnyPattern (o : RegexOracle) (str patterns : Str) : Bool :=
  if patterns == [] then false
  else if !strContains patterns [','] then amendedMatchesPattern o str (trimSpace patterns)
  else
    (splitComma patterns).any (fun p =>
      let q := trimSpace p
      !q.isEmpty && amendedMatchesPattern o str q)

/-- The condition under which the CallExpr case sets hasVerifyTestMain (apart
from the inTestMain guard). -/
def callIsVerifyTestMain (galias : Str) (fn : FunExpr) : Bool :=
  match fn with
  | .selector sel => isGoleakCall sel verifyTestMain galias
  | .nonSelector => false

/-- The condition under which the DeferStmt case marks the current test
function (apart from the currentTestFunc guard). -/
def deferIsVerifyNone (galias : Str) (fn : FunExpr) : Bool :=
  match fn with
  | .selector sel => isGoleakCall sel verifyNone galias
  | .nonSelector => false

theorem strContains_singleton (c : Char) (s : Str) :
    strContains s [c] = s.any (fun x => x == c) := by
  induction s with
  | nil => rfl
  | cons x t ih =>
    simp only [strContains, strStartsWith, List.any_cons, ih, Bool.and_true]

theorem specialChars_contains_eq (c : Char) :
    specialChars.contains c = (regexMetachars.contains c || c == '*') := by
  rw [Bool.eq_iff_iff]
  simp only [specialChars, regexMetachars, List.contains, List.elem_eq_mem,
    Bool.or_eq_true, decide_eq_true_eq, List.mem_cons, List.mem_singleton,
    List.not_mem_nil, beq_iff_eq]
  tauto

theorem containsSpecialChars_eq (p : Str) :
    containsSpecialChars p = (containsRegexMetachars p || strContains p ['*']) := by
  rw [strContains_singleton, Bool.eq_iff_iff]
  simp only [containsSpecialChars, containsRegexMetachars, List.any_eq_true,
    specialChars_contains_eq, Bool.or_eq_true]
  constructor
  · rintro ⟨x, hx, h | h⟩
    · exact Or.inl ⟨x, hx, h⟩
    · exact Or.inr ⟨x, hx, h⟩
  · rintro (⟨x, hx, h⟩ | ⟨x, hx, h⟩)
    · exact ⟨x, hx, Or.inl h⟩
    · exact ⟨x, hx, Or.inr h⟩

theorem contains_true_iff (l : Str) (c : Char) : l.contains c = true ↔ c ∈ l := by
  simp [List.contains, List.elem_eq_mem]

theorem quoteMeta_cons_special (c : Char) (t : Str) (h : c ∈ specialChars) :
    quoteMeta (c :: t) = '\\' :: c :: quoteMeta t := by
  simp [quoteMeta, List.contains, List.elem_eq_mem, h]

theorem quoteMeta_cons_plain (c : Char) (t : Str) (h : c ∉ specialChars) :
    quoteMeta (c :: t) = c :: quoteMeta t := by
  simp [quoteMeta, List.contains, List.elem_eq_mem, h]

theorem quoteMeta_head_ne_star (t r : Str) : quoteMeta t ≠ '*' :: r := by
  cases t with
  | nil => simp [quoteMeta]
  | cons c t' =>
    by_cases h : c ∈ specialChars
    · rw [quoteMeta_cons_special c t' h]
      simp
    · rw [quoteMeta_cons_plain c t' h]
      intro hc
      injection hc with h1 _
      exact h (h1 ▸ (by decide : ('*' : Char) ∈ specialChars))

theorem isPrefixOf_escStar_false (x : Str) (h : ∀ r, x ≠ '*' :: r) :
    (['\\', '*'] : Str).isPrefixOf ('\\' :: x) = false := by
  cases x with
  | nil => simp [List.isPrefixOf]
  | cons y r =>
    have hy : (('*' : Char) == y) = false := by
      rw [beq_eq_false_iff_ne]
      intro he
      exact h r (by rw [he.symm])
    simp [List.isPrefixOf, hy]

theorem replaceAll_quoteMeta (p : Str) :
    replaceAll (quoteMeta p) ['\\', '*'] ['.', '*'] = specGlobBody p := by
  induction p with
  | nil => simp [quoteMeta, replaceAll, specGlobBody]
  | cons c t ih =>
    by_cases hc : c = '*'
    · subst hc
      rw [quoteMeta_cons_special '*' t (by decide)]
      rw [replaceAll]
      have hpre : (['\\', '*'] : Str).isPrefixOf ('\\' :: '*' :: quoteMeta t) = true := by
        simp [List.isPrefixOf]
      simp only [List.isEmpty_cons, Bool.false_eq_true, if_false, hpre, if_true]
      simp only [List.length_cons, List.length_nil, List.drop_succ_cons, List.drop_zero]
      rw [ih]
      simp [specGlobBody]
    · have hcb : (c == '*') = false := by simp [hc]
      by_cases hs : c ∈ specialChars
      · rw [quoteMeta_cons_special c t hs]
        rw [replaceAll]
        have hcb2 : (('*' : Char) == c) = false := by
          rw [beq_eq_false_iff_ne]
          exact fun he => hc he.symm
        have hpre1 : (['\\', '*'] : Str).isPrefixOf ('\\' :: c :: quoteMeta t) = false := by
          simp [List.isPrefixOf, hcb2]
        simp only [List.isEmpty_cons, Bool.false_eq_true, if_false, hpre1]
        have step2 : replaceAll (c :: quoteMeta t) ['\\', '*'] ['.', '*'] =
            c :: replaceAll (quoteMeta t) ['\\', '*'] ['.', '*'] := by
          rw [replaceAll]
          by_cases hb : c = '\\'
          · subst hb
            have hpre2 := isPrefixOf_escStar_false (quoteMeta t) (quoteMeta_head_ne_star t)
            simp only [List.isEmpty_cons, Bool.false_eq_true, if_false, hpre2]
          · have hbb : (('\\' : Char) == c) = false := by
              rw [beq_eq_false_iff_ne]
              exact fun he => hb he.symm
            simp [List.isPrefixOf, hbb]
        rw [step2, ih]
        have : specGlobBody (c :: t) = '\\' :: c :: specGlobBody t := by
          simp only [specGlobBody, hcb, Bool.false_eq_true, if_false]
          simp [List.contains, List.elem_eq_mem, hs]
        rw [this]
      · rw [quoteMeta_cons_plain c t hs]
        rw [replaceAll]
        have hcbs : c ≠ '\\' := by
          intro hb
          exact hs (hb ▸ (by decide : ('\\' : Char) ∈ specialChars))
        have hbb : (('\\' : Char) == c) = false := by
          rw [beq_eq_false_iff_ne]
          exact fun he => hcbs he.symm
        have hpre : (['\\', '*'] : Str).isPrefixOf (c :: quoteMeta t) = false := by
          simp [List.isPrefixOf, hbb]
        simp only [List.isEmpty_cons, Bool.false_eq_true, if_false, hpre]
        rw [ih]
        have : specGlobBody (c :: t) = c :: specGlobBody t := by
          simp only [specGlobBody, hcb, Bool.false_eq_true, if_false]
          simp [List.contains, List.elem_eq_mem, hs]
        rw [this]

theorem globRegexOf_eq_spec (p : Str) : globRegexOf p = specGlobRegex p := by
  simp [globRegexOf, specGlobRegex, replaceAll_quoteMeta]

theorem matchesPattern_eq_amended (o : RegexOracle) (s p : Str) :
    matchesPattern o s p = amendedMatchesPattern o s p := by
  simp only [matchesPattern, amendedMatchesPattern, containsSpecialChars_eq,
    Bool.not_or, matchGlobPattern, claimMatchGlob, globRegexOf_eq_spec]

/-- Claim C6, counterexample: for candidate "x" and pattern list " " (one
blank component), the per-pattern policy of the claim trims the component to
the empty pattern, which contains no metacharacter and no wildcard, and the
substring test "x contains empty" succeeds — so the claim predicts a match;
matchesAnyPattern in the source instead rejects the empty pattern before the
substring test and returns false.  (The oracle is irrelevant: no regex case is
reached.) -/
theorem C6_counterexample :
    matchesAnyPattern ⟨fun _ => none⟩ ['x'] [' '] = false ∧
      claimMatchesAnyPattern ⟨fun _ => none⟩ ['x'] [' '] = true := by
  constructor
  · decide
  · decide

/-- Claim C6 amended: matchesAnyPattern splits on commas, trims each
component, and returns true iff some component matches, where a component that
is empty after trimming is skipped in a comma-containing list and a comma-free
list that trims to the empty pattern matches only the empty candidate (by
exact equality); each nonempty single pattern is evaluated with the precedence
the claim states (exact equality; substring when no metacharacter and no
wildcard; anchored glob when wildcard only; otherwise unanchored regex), and
an empty pattern list always yields false. -/
theorem C6_amended (o : RegexOracle) (str patterns : Str) :
    matchesAnyPattern o str patterns = amendedMatchesAnyPattern o str patterns := by
  simp only [matchesAnyPattern, amendedMatchesAnyPattern, matchesPattern_eq_amended]

/-- Claim C7: a pattern whose compilation fails matches nothing — in the
unanchored-regex path (case d) and in the glob path (case c, applied to the
translated anchored pattern) a failed compile yields false.  Totality of the
embedding (all matcher functions are total Lean functions) models that
matching never panics or aborts the run. -/
theorem C7_compile_failure_matches_nothing (o : RegexOracle) (str pattern : Str) :
    (o.compile pattern = none → matchRegexPattern o str pattern = false) ∧
      (o.compile (globRegexOf pattern) = none → matchGlobPattern o str pattern = false) := by
  constructor
  · intro h
    simp [matchRegexPattern, h]
  · intro h
    simp [matchGlobPattern, h]

theorem C7_witness :
    ((⟨fun _ => none⟩ : RegexOracle).compile "a(".toList = none ∧
        matchRegexPattern ⟨fun _ => none⟩ "xay".toList "a(".toList = false) ∧
      ((⟨fun _ => none⟩ : RegexOracle).compile (globRegexOf "a(*".toList) = none ∧
        matchGlobPattern ⟨fun _ => none⟩ "xay".toList "a(*".toList = false) := by
  refine ⟨⟨rfl, ?_⟩, ⟨rfl, ?_⟩⟩
  · exact (C7_compile_failure_matches_nothing ⟨fun _ => none⟩ "xay".toList "a(".toList).1 rfl
  · exact (C7_compile_failure_matches_nothing ⟨fun _ => none⟩ "xay".toList "a(*".toList).2 rfl

theorem find_append_eq {α : Type} (p : α → Bool) (l₁ l₂ : List α) :
    List.find? p (l₁ ++ l₂) =
      (match List.find? p l₁ with
       | some x => some x
       | none => List.find? p l₂) := by
  induction l₁ with
  | nil => simp
  | cons a l ih =>
    by_cases h : p a = true
    · simp [List.find?, h]
    · simp only [Bool.not_eq_true] at h
      simp [List.find?, h, ih]

theorem getGoleakAliasImports_eq_find (imps : List ImportSpec) :
    getGoleakAliasImports imps =
      (imps.find? importMatchesGoleak).map (fun imp =>
        match imp.name with
        | some nm => nm
        | none => defaultAlias) := by
  induction imps with
  | nil => rfl
  | cons imp rest ih =>
    by_cases h : importMatchesGoleak imp = true
    · simp [getGoleakAliasImports, List.find?, h]
    · simp only [Bool.not_eq_true] at h
      simp [getGoleakAliasImports, List.find?, h, ih]

/-- Claim C4: getGoleakAlias returns, for the first import (in file order,
then declaration order) whose quoted path is one of the two recognised goleak
paths, the explicit alias when present and "goleak" otherwise; it returns the
empty string exactly when no file imports either path (assuming, as Go
guarantees, that explicit import aliases are nonempty identifiers); matches
found later never affect the result. -/
theorem C4_first_import_wins (files : List File)
    (hids : ∀ f ∈ files, ∀ imp ∈ f.imports, imp.name ≠ some []) :
    getGoleakAlias files =
      (match (files.flatMap (fun f => f.imports)).find? importMatchesGoleak with
       | some imp =>
         match imp.name with
         | some nm => nm
         | none => defaultAlias
       | none => []) ∧
    (getGoleakAlias files = [] ↔
      ∀ f ∈ files, ∀ imp ∈ f.imports, importMatchesGoleak imp = false) := by
  have main : ∀ fs : List File,
      getGoleakAlias fs =
        (match (fs.flatMap (fun f => f.imports)).find? importMatchesGoleak with
         | some imp =>
           match imp.name with
           | some nm => nm
           | none => defaultAlias
         | none => []) := by
    intro fs
    induction fs with
    | nil => rfl
    | cons f rest ih =>
      simp only [getGoleakAlias, List.flatMap_cons, find_append_eq,
        getGoleakAliasImports_eq_find]
      cases h : f.imports.find? importMatchesGoleak with
      | none => simpa [h] using ih
      | some imp => simp [h]
  refine ⟨main files, ?_⟩
  rw [main files]
  cases h : (files.flatMap (fun f => f.imports)).find? importMatchesGoleak with
  | none =>
    simp only []
    constructor
    · intro _ f hf imp himp
      have := List.find?_eq_none.mp h imp (List.mem_flatMap.mpr ⟨f, hf, himp⟩)
      simpa using this
    · intro _
      trivial
  | some imp =>
    simp only []
    constructor
    · intro he
      exfalso
      have hmem := List.mem_of_find?_eq_some h
      have hmatch := List.find?_some h
      rcases List.mem_flatMap.mp hmem with ⟨f, hf, himp⟩
      cases hn : imp.name with
      | some nm =>
        rw [hn] at he
        have he2 : nm = [] := he
        exact hids f hf imp himp (by rw [hn, he2])
      | none =>
        rw [hn] at he
        have he2 : defaultAlias = [] := he
        exact absurd he2 (by decide)
    · intro hall
      exfalso
      have hmem := List.mem_of_find?_eq_some h
      have hmatch := List.find?_some h
      rcases List.mem_flatMap.mp hmem with ⟨f, hf, himp⟩
      rw [hall f hf imp himp] at hmatch
      exact absurd hmatch (by decide)

theorem C4_witness :
    (∀ f ∈ [(⟨"a_test.go".toList, [⟨some "g1".toList, some goleakUberPath⟩], []⟩ : File),
        ⟨"b_test.go".toList, [⟨some "g2".toList, some goleakGithubPath⟩], []⟩],
      ∀ imp ∈ f.imports, imp.name ≠ some []) ∧
    (getGoleakAlias
        [⟨"a_test.go".toList, [⟨some "g1".toList, some goleakUberPath⟩], []⟩,
         ⟨"b_test.go".toList, [⟨some "g2".toList, some goleakGithubPath⟩], []⟩] =
      (match (([(⟨"a_test.go".toList, [⟨some "g1".toList, some goleakUberPath⟩], []⟩ : File),
            ⟨"b_test.go".toList, [⟨some "g2".toList, some goleakGithubPath⟩], []⟩]).flatMap
              (fun f => f.imports)).find? importMatchesGoleak with
       | some imp =>
         match imp.name with
         | some nm => nm
         | none => defaultAlias
       | none => []) ∧
      (getGoleakAlias
          [⟨"a_test.go".toList, [⟨some "g1".toList, some goleakUberPath⟩], []⟩,
           ⟨"b_test.go".toList, [⟨some "g2".toList, some goleakGithubPath⟩], []⟩] = [] ↔
        ∀ f ∈ [(⟨"a_test.go".toList, [⟨some "g1".toList, some goleakUberPath⟩], []⟩ : File),
            ⟨"b_test.go".toList, [⟨some "g2".toList, some goleakGithubPath⟩], []⟩],
          ∀ imp ∈ f.imports, importMatchesGoleak imp = false)) :=
  ⟨by decide, C4_first_import_wins _ (by decide)⟩

theorem stepCallExpr_eq (galias : Str) (st : ExtractState) (fn : FunExpr) :
    stepCallExpr galias st fn =
      { st with res := { st.res with hasVerifyTestMain :=
          st.res.hasVerifyTestMain || (st.inTestMain && callIsVerifyTestMain galias fn) } } := by
  cases fn with
  | nonSelector => simp [stepCallExpr, callIsVerifyTestMain]
  | selector sel =>
    by_cases h : (st.inTestMain && isGoleakCall sel verifyTestMain galias) = true
    · simp [stepCallExpr, callIsVerifyTestMain, h]
    · simp only [Bool.not_eq_true] at h
      simp [stepCallExpr, callIsVerifyTestMain, h]

theorem stepDeferStmt_eq (galias : Str) (st : ExtractState) (fn : FunExpr) :
    stepDeferStmt galias st fn =
      { st with res := { st.res with funcsCoveredByDefer :=
          st.res.funcsCoveredByDefer ++
            (if !st.currentTestFunc.isEmpty && deferIsVerifyNone galias fn
             then [st.currentTestFunc] else []) } } := by
  by_cases hcur : (!st.currentTestFunc.isEmpty) = true
  · cases fn with
    | nonSelector => simp [stepDeferStmt, deferIsVerifyNone, hcur]
    | selector sel =>
      by_cases h : isGoleakCall sel verifyNone galias = true
      · simp [stepDeferStmt, deferIsVerifyNone, hcur, h]
      · simp only [Bool.not_eq_true] at h
        simp [stepDeferStmt, deferIsVerifyNone, hcur, h]
  · simp only [Bool.not_eq_true] at hcur
    simp [stepDeferStmt, deferIsVerifyNone, hcur]

theorem stepFuncDecl_eq (filename : Str) (st : ExtractState) (name : Option Str) (pos : Nat) :
    stepFuncDecl filename st name pos =
      (match name with
       | none => st
       | some nm =>
         if nm == testMainFunc then
           ⟨[], true, { st.res with hasTestMain := true }⟩
         else if isTestFunction nm then
           ⟨nm, false, { st.res with testFuncs := st.res.testFuncs ++ [⟨nm, pos, filename⟩] }⟩
         else ⟨[], false, st.res⟩) := by
  cases name with
  | none => rfl
  | some nm =>
    by_cases h1 : (nm == testMainFunc) = true
    · simp [stepFuncDecl, h1]
    · simp only [Bool.not_eq_true] at h1
      by_cases h2 : isTestFunction nm = true
      · simp [stepFuncDecl, h1, h2]
      · simp only [Bool.not_eq_true] at h2
        simp [stepFuncDecl, h1, h2]

mutual
theorem walkNode_testFuncs (galias filename : Str) (st : ExtractState) (n : Node) :
    (walkNode galias filename st n).res.testFuncs =
      st.res.testFuncs ++ collectTestsNode filename n := by
  cases n with
  | funcDecl name pos children =>
    rw [walkNode, walkList_testFuncs, stepFuncDecl_eq]
    cases name with
    | none => simp [collectTestsNode]
    | some nm =>
      by_cases h1 : (nm == testMainFunc) = true
      · have : isTestFunction nm = false := by
          have : nm = testMainFunc := by simpa using h1
          simp [isTestFunction, this]
        simp [h1, collectTestsNode, this]
      · simp only [Bool.not_eq_true] at h1
        by_cases h2 : isTestFunction nm = true
        · simp [h1, h2, collectTestsNode]
        · simp only [Bool.not_eq_true] at h2
          simp [h1, h2, collectTestsNode]
  | funcLit children =>
    rw [walkNode, walkList_testFuncs]
    simp [collectTestsNode]
  | callExpr fn children =>
    rw [walkNode, walkList_testFuncs, stepCallExpr_eq]
    simp [collectTestsNode]
  | deferStmt fn children =>
    rw [walkNode, walkList_testFuncs, stepDeferStmt_eq]
    simp [collectTestsNode]
  | otherNode children =>
    rw [walkNode, walkList_testFuncs]
    simp [collectTestsNode]

theorem walkList_testFuncs (galias filename : Str) (st : ExtractState) (ns : List Node) :
    (walkList galias filename st ns).res.testFuncs =
      st.res.testFuncs ++ collectTestsList filename ns := by
  cases ns with
  | nil => simp [walkList, collectTestsList]
  | cons n rest =>
    rw [walkList, walkList_testFuncs, walkNode_testFuncs]
    simp [collectTestsList]
end

mutual
theorem walkNode_hasTestMain (galias filename : Str) (st : ExtractState) (n : Node) :
    (walkNode galias filename st n).res.hasTestMain =
      (st.res.hasTestMain || hasTestMainDeclNode n) := by
  cases n with
  | funcDecl name pos children =>
    rw [walkNode, walkList_hasTestMain, stepFuncDecl_eq]
    cases name with
    | none => simp [hasTestMainDeclNode]
    | some nm =>
      by_cases h1 : (nm == testMainFunc) = true
      · simp [h1, hasTestMainDeclNode, Bool.or_assoc]
      · simp only [Bool.not_eq_true] at h1
        by_cases h2 : isTestFunction nm = true
        · simp [h1, h2, hasTestMainDeclNode, Bool.or_assoc]
        · simp only [Bool.not_eq_true] at h2
          simp [h1, h2, hasTestMainDeclNode, Bool.or_assoc]
  | funcLit children =>
    rw [walkNode, walkList_hasTestMain]
    simp [hasTestMainDeclNode]
  | callExpr fn children =>
    rw [walkNode, walkList_hasTestMain, stepCallExpr_eq]
    simp [hasTestMainDeclNode]
  | deferStmt fn children =>
    rw [walkNode, walkList_hasTestMain, stepDeferStmt_eq]
    simp [hasTestMainDeclNode]
  | otherNode children =>
    rw [walkNode, walkList_hasTestMain]
    simp [hasTestMainDeclNode]

theorem walkList_hasTestMain (galias filename : Str) (st : ExtractState) (ns : List Node) :
    (walkList galias filename st ns).res.hasTestMain =
      (st.res.hasTestMain || hasTestMainDeclList ns) := by
  cases ns with
  | nil => simp [walkList, hasTestMainDeclList]
  | cons n rest =>
    rw [walkList, walkList_hasTestMain, walkNode_hasTestMain]
    simp [hasTestMainDeclList, Bool.or_assoc]
end

mutual
theorem walkNode_hVTM_mono (galias filename : Str) (st : ExtractState) (n : Node)
    (h : st.res.hasVerifyTestMain = true) :
    (walkNode galias filename st n).res.hasVerifyTestMain = true := by
  cases n with
  | funcDecl name pos children =>
    rw [walkNode]
    apply walkList_hVTM_mono
    rw [stepFuncDecl_eq]
    cases name with
    | none => exact h
    | some nm =>
      by_cases h1 : (nm == testMainFunc) = true
      · simp [h1, h]
      · simp only [Bool.not_eq_true] at h1
        by_cases h2 : isTestFunction nm = true
        · simp [h1, h2, h]
        · simp only [Bool.not_eq_true] at h2
          simp [h1, h2, h]
  | funcLit children =>
    rw [walkNode]
    exact walkList_hVTM_mono galias filename st children h
  | callExpr fn children =>
    rw [walkNode]
    apply walkList_hVTM_mono
    rw [stepCallExpr_eq]
    simp [h]
  | deferStmt fn children =>
    rw [walkNode]
    apply walkList_hVTM_mono
    rw [stepDeferStmt_eq]
    simpa using h
  | otherNode children =>
    rw [walkNode]
    exact walkList_hVTM_mono galias filename st children h

theorem walkList_hVTM_mono (galias filename : Str) (st : ExtractState) (ns : List Node)
    (h : st.res.hasVerifyTestMain = true) :
    (walkList galias filename st ns).res.hasVerifyTestMain = true := by
  cases ns with
  | nil => simpa [walkList] using h
  | cons n rest =>
    rw [walkList]
    exact walkList_hVTM_mono galias filename _ rest (walkNode_hVTM_mono galias filename st n h)
end

mutual
theorem walkNode_verify (galias filename : Str) (st : ExtractState) (n : Node)
    (hin : st.inTestMain = true) (hnf : nodeHasNoFuncDecl n = true) :
    (walkNode galias filename st n).inTestMain = true ∧
      (walkNode galias filename st n).res.hasVerifyTestMain =
        (st.res.hasVerifyTestMain || nodeHasVerifyCall galias n) := by
  cases n with
  | funcDecl name pos children => simp [nodeHasNoFuncDecl] at hnf
  | funcLit children =>
    rw [walkNode]
    have := walkList_verify galias filename st children hin (by simpa [nodeHasNoFuncDecl] using hnf)
    simpa [nodeHasVerifyCall] using this
  | callExpr fn children =>
    rw [walkNode, stepCallExpr_eq]
    have := walkList_verify galias filename
      { st with res := { st.res with hasVerifyTestMain :=
          st.res.hasVerifyTestMain || (st.inTestMain && callIsVerifyTestMain galias fn) } }
      children hin (by simpa [nodeHasNoFuncDecl] using hnf)
    rcases this with ⟨h1, h2⟩
    refine ⟨h1, ?_⟩
    rw [h2]
    simp [hin, nodeHasVerifyCall, callIsVerifyTestMain, Bool.or_assoc]
  | deferStmt fn children =>
    rw [walkNode, stepDeferStmt_eq]
    have := walkList_verify galias filename
      { st with res := { st.res with funcsCoveredByDefer :=
          st.res.funcsCoveredByDefer ++
            (if !st.currentTestFunc.isEmpty && deferIsVerifyNone galias fn
             then [st.currentTestFunc] else []) } }
      children hin (by simpa [nodeHasNoFuncDecl] using hnf)
    simpa [nodeHasVerifyCall] using this
  | otherNode children =>
    rw [walkNode]
    have := walkList_verify galias filename st children hin (by simpa [nodeHasNoFuncDecl] using hnf)
    simpa [nodeHasVerifyCall] using this

theorem walkList_verify (galias filename : Str) (st : ExtractState) (ns : List Node)
    (hin : st.inTestMain = true) (hnf : listHasNoFuncDecl ns = true) :
    (walkList galias filename st ns).inTestMain = true ∧
      (walkList galias filename st ns).res.hasVerifyTestMain =
        (st.res.hasVerifyTestMain || listHasVerifyCall galias ns) := by
  cases ns with
  | nil => simp [walkList, listHasVerifyCall, hin]
  | cons n rest =>
    rw [walkList]
    have hsplit : nodeHasNoFuncDecl n = true ∧ listHasNoFuncDecl rest = true := by
      simpa [listHasNoFuncDecl, Bool.and_eq_true] using hnf
    have hn := walkNode_verify galias filename st n hin hsplit.1
    have hr := walkList_verify galias filename (walkNode galias filename st n) rest hn.1 hsplit.2
    refine ⟨hr.1, ?_⟩
    rw [hr.2, hn.2]
    simp [listHasVerifyCall, Bool.or_assoc]
end

mutual
theorem walkNode_covered_empty (galias filename : Str) (st : ExtractState) (n : Node)
    (hcur : st.currentTestFunc = []) (hnf : nodeHasNoFuncDecl n = true) :
    (walkNode galias filename st n).currentTestFunc = [] ∧
      (walkNode galias filename st n).res.funcsCoveredByDefer =
        st.res.funcsCoveredByDefer := by
  cases n with
  | funcDecl name pos children => simp [nodeHasNoFuncDecl] at hnf
  | funcLit children =>
    rw [walkNode]
    exact walkList_covered_empty galias filename st children hcur
      (by simpa [nodeHasNoFuncDecl] using hnf)
  | callExpr fn children =>
    rw [walkNode, stepCallExpr_eq]
    exact walkList_covered_empty galias filename _ children hcur
      (by simpa [nodeHasNoFuncDecl] using hnf)
  | deferStmt fn children =>
    rw [walkNode, stepDeferStmt_eq]
    have hskip : (if !st.currentTestFunc.isEmpty && deferIsVerifyNone galias fn
        then [st.currentTestFunc] else []) = ([] : List Str) := by
      simp [hcur]
    rw [hskip]
    have := walkList_covered_empty galias filename
      { st with res := { st.res with funcsCoveredByDefer := st.res.funcsCoveredByDefer ++ [] } }
      children hcur (by simpa [nodeHasNoFuncDecl] using hnf)
    simpa using this
  | otherNode children =>
    rw [walkNode]
    exact walkList_covered_empty galias filename st children hcur
      (by simpa [nodeHasNoFuncDecl] using hnf)

theorem walkList_covered_empty (galias filename : Str) (st : ExtractState) (ns : List Node)
    (hcur : st.currentTestFunc = []) (hnf : listHasNoFuncDecl ns = true) :
    (walkList galias filename st ns).currentTestFunc = [] ∧
      (walkList galias filename st ns).res.funcsCoveredByDefer =
        st.res.funcsCoveredByDefer := by
  cases ns with
  | nil => simp [walkList, hcur]
  | cons n rest =>
    rw [walkList]
    have hsplit : nodeHasNoFuncDecl n = true ∧ listHasNoFuncDecl rest = true := by
      simpa [listHasNoFuncDecl, Bool.and_eq_true] using hnf
    have hn := walkNode_covered_empty galias filename st n hcur hsplit.1
    have hr := walkList_covered_empty galias filename (walkNode galias filename st n) rest
      hn.1 hsplit.2
    exact ⟨hr.1, by rw [hr.2, hn.2]⟩
end

/-- The testFuncs recorded for one file: empty for a non-test file, otherwise
the pre-order RegularTest declarations of the file. -/
theorem processFile_testFuncs (f : File) (galias : Str) :
    (processFileForAnalysis f galias).testFuncs =
      (if isTestFile f.filename then collectTestsList f.filename f.decls else []) := by
  by_cases h : isTestFile f.filename = true
  · simp only [processFileForAnalysis, h, Bool.not_true, Bool.false_eq_true, if_false, if_true]
    rw [walkList_testFuncs]
    simp [emptyAnalysisResult]
  · simp only [Bool.not_eq_true] at h
    simp [processFileForAnalysis, h, emptyAnalysisResult]

/-- The hasTestMain flag for one file: false for a non-test file, otherwise
whether the file declares TestMain. -/
theorem processFile_hasTestMain (f : File) (galias : Str) :
    (processFileForAnalysis f galias).hasTestMain =
      (isTestFile f.filename && hasTestMainDeclList f.decls) := by
  by_cases h : isTestFile f.filename = true
  · simp only [processFileForAnalysis, h, Bool.not_true, Bool.false_eq_true, if_false, if_true]
    rw [walkList_hasTestMain]
    simp [emptyAnalysisResult]
  · simp only [Bool.not_eq_true] at h
    simp [processFileForAnalysis, h, emptyAnalysisResult]

theorem foldl_merge_hasTestMain (galias : Str) (files : List File) (acc : AnalysisResult) :
    (files.foldl (fun a f => mergeResults a (processFileForAnalysis f galias)) acc).hasTestMain =
      (acc.hasTestMain || files.any (fun f => (processFileForAnalysis f galias).hasTestMain)) := by
  induction files generalizing acc with
  | nil => simp
  | cons f rest ih =>
    rw [List.foldl_cons, ih]
    simp [mergeResults, Bool.or_assoc, List.any_cons]

theorem foldl_merge_hVTM (galias : Str) (files : List File) (acc : AnalysisResult) :
    (files.foldl (fun a f => mergeResults a (processFileForAnalysis f galias)) acc).hasVerifyTestMain =
      (acc.hasVerifyTestMain ||
        files.any (fun f => (processFileForAnalysis f galias).hasVerifyTestMain)) := by
  induction files generalizing acc with
  | nil => simp
  | cons f rest ih =>
    rw [List.foldl_cons, ih]
    simp [mergeResults, Bool.or_assoc, List.any_cons]

theorem foldl_merge_testFuncs (galias : Str) (files : List File) (acc : AnalysisResult) :
    (files.foldl (fun a f => mergeResults a (processFileForAnalysis f galias)) acc).testFuncs =
      acc.testFuncs ++ files.flatMap (fun f => (processFileForAnalysis f galias).testFuncs) := by
  induction files generalizing acc with
  | nil => simp
  | cons f rest ih =>
    rw [List.foldl_cons, ih]
    simp [mergeResults, List.append_assoc, List.flatMap_cons]

theorem foldl_merge_covered (galias : Str) (files : List File) (acc : AnalysisResult) :
    (files.foldl (fun a f => mergeResults a (processFileForAnalysis f galias)) acc).funcsCoveredByDefer =
      acc.funcsCoveredByDefer ++
        files.flatMap (fun f => (processFileForAnalysis f galias).funcsCoveredByDefer) := by
  induction files generalizing acc with
  | nil => simp
  | cons f rest ih =>
    rw [List.foldl_cons, ih]
    simp [mergeResults, List.append_assoc, List.flatMap_cons]

theorem pure_testFuncs (galias : Str) (files : List File) :
    (analyzeTestFunctionsPure galias files).testFuncs =
      files.flatMap (fun f =>
        if isTestFile f.filename then collectTestsList f.filename f.decls else []) := by
  rw [analyzeTestFunctionsPure, foldl_merge_testFuncs]
  simp only [emptyAnalysisResult, List.nil_append]
  simp only [processFile_testFuncs]

theorem pure_hasTestMain (galias : Str) (files : List File) :
    (analyzeTestFunctionsPure galias files).hasTestMain =
      files.any (fun f => isTestFile f.filename && hasTestMainDeclList f.decls) := by
  rw [analyzeTestFunctionsPure, foldl_merge_hasTestMain]
  simp only [emptyAnalysisResult, Bool.false_or]
  simp only [processFile_hasTestMain]

theorem analyzeSeqCtx_none (galias : Str) (files : List File) (c : Nat) (acc : AnalysisResult) :
    analyzeSeqCtx none galias c acc files =
      some (files.foldl (fun a f => mergeResults a (processFileForAnalysis f galias)) acc,
        c + files.length) := by
  induction files generalizing c acc with
  | nil => simp [analyzeSeqCtx]
  | cons f rest ih =>
    rw [analyzeSeqCtx]
    simp only [ctxDoneAt, Bool.false_eq_true, if_false]
    rw [ih]
    simp only [List.foldl_cons, List.length_cons]
    have : c + 1 + rest.length = c + (rest.length + 1) := by omega
    rw [this]

theorem analyzeSeqCtx_none_pure (galias : Str) (files : List File) (c : Nat) :
    analyzeSeqCtx none galias c emptyAnalysisResult files =
      some (analyzeTestFunctionsPure galias files, c + files.length) := by
  rw [analyzeSeqCtx_none]
  rfl

theorem reportLoopCtx_none (o : RegexOracle) (config : Config) (hTM hVTM : Bool)
    (covered : List Str) (tfs : List TestFuncInfo) (c : Nat) :
    reportLoopCtx o none config hTM hVTM covered c tfs =
      (tfs.filterMap (fun tf =>
        if covered.contains tf.name then none
        else if shouldExcludeFileWithConfig o tf.filename config then none
        else some ⟨tf.pos, diagMsg tf.name
          (if hTM && !hVTM then msgTestMainNoVerify else msgMissingDefer)⟩),
       RunOutcome.ok) := by
  induction tfs generalizing c with
  | nil => rfl
  | cons tf rest ih =>
    rw [reportLoopCtx]
    simp only [ctxDoneAt, Bool.false_eq_true, if_false]
    rw [ih]
    by_cases h1 : tf.name ∈ covered
    · simp [h1, List.filterMap_cons]
    · by_cases h2 : shouldExcludeFileWithConfig o tf.filename config = true
      · simp [h1, h2, List.filterMap_cons]
      · simp only [Bool.not_eq_true] at h2
        simp [h1, h2, List.filterMap_cons]

theorem reportWalkCtx_none (o : RegexOracle) (config : Config) (reason : Str)
    (fds : List (Option Str × Nat × Str)) (c : Nat) :
    reportWalkCtx o none config reason c fds =
      fds.filterMap (fun fd =>
        match fd.1 with
        | some nm =>
          if isTestFunction nm && !shouldExcludeFileWithConfig o fd.2.2 config then
            some ⟨fd.2.1, diagMsg nm reason⟩
          else none
        | none => none) := by
  induction fds generalizing c with
  | nil => rfl
  | cons fd rest ih =>
    rw [reportWalkCtx]
    simp only [ctxDoneAt, Bool.false_eq_true, if_false]
    rw [ih]
    cases h : fd.1 with
    | none => simp [h, List.filterMap_cons]
    | some nm =>
      by_cases ht : isTestFunction nm = true
      · by_cases he : shouldExcludeFileWithConfig o fd.2.2 config = true
        · simp [h, ht, he, List.filterMap_cons]
        · simp only [Bool.not_eq_true] at he
          simp [h, ht, he, List.filterMap_cons]
      · simp only [Bool.not_eq_true] at ht
        simp [h, ht, List.filterMap_cons]

/-- Claim C3: when no file of the unit imports the library under either
recognised path (and the unit is nonempty, not package-excluded, and has a
non-excluded test file), run reports every Test-named function declaration of
every file whose file is not excluded, each with reason "goleak not imported",
and emits nothing else. -/
theorem C3_no_import_reports_all (o : RegexOracle) (config : Config) (p : Pass)
    (hfiles : p.files ≠ [])
    (halias : getGoleakAlias p.files = [])
    (hpkg : shouldExcludePackage o p.pkgPath config = false)
    (htf : hasNonExcludedTestFiles o p config = true) :
    run o none config p =
      ((passFuncDecls p).filterMap (fun fd =>
        match fd.1 with
        | some nm =>
          if isTestFunction nm && !shouldExcludeFileWithConfig o fd.2.2 config then
            some ⟨fd.2.1, diagMsg nm msgNotImported⟩
          else none
        | none => none), .ok) := by
  have h0 : p.files.isEmpty = false := by
    cases h : p.files with
    | nil => exact absurd h hfiles
    | cons a l => rfl
  rw [run]
  simp only [h0, Bool.false_eq_true, if_false, ctxDoneAt, hpkg, htf, Bool.not_true,
    halias, List.isEmpty_nil, if_true]
  rw [reportUncoveredTestFunctionsWithContext]
  simp only [ctxDoneAt, Bool.false_eq_true, if_false]
  rw [reportWalkCtx_none]

theorem C3_witness :
    (([⟨"a_test.go".toList, [], [.funcDecl (some "TestA".toList) 5 []]⟩,
        ⟨"util.go".toList, [], [.funcDecl (some "TestHelper".toList) 9 []]⟩] : List File) ≠ []) ∧
    getGoleakAlias
      [⟨"a_test.go".toList, [], [.funcDecl (some "TestA".toList) 5 []]⟩,
       ⟨"util.go".toList, [], [.funcDecl (some "TestHelper".toList) 9 []]⟩] = [] ∧
    shouldExcludePackage ⟨fun _ => none⟩ "pkg".toList ⟨[], [], 4, 1000⟩ = false ∧
    hasNonExcludedTestFiles ⟨fun _ => none⟩
      ⟨"pkg".toList,
        [⟨"a_test.go".toList, [], [.funcDecl (some "TestA".toList) 5 []]⟩,
         ⟨"util.go".toList, [], [.funcDecl (some "TestHelper".toList) 9 []]⟩]⟩
      ⟨[], [], 4, 1000⟩ = true ∧
    run ⟨fun _ => none⟩ none ⟨[], [], 4, 1000⟩
      ⟨"pkg".toList,
        [⟨"a_test.go".toList, [], [.funcDecl (some "TestA".toList) 5 []]⟩,
         ⟨"util.go".toList, [], [.funcDecl (some "TestHelper".toList) 9 []]⟩]⟩ =
      ([⟨5, diagMsg "TestA".toList msgNotImported⟩,
        ⟨9, diagMsg "TestHelper".toList msgNotImported⟩], .ok) := by
  refine ⟨by simp, by decide, by decide, by decide, ?_⟩
  have h := C3_no_import_reports_all ⟨fun _ => none⟩ ⟨[], [], 4, 1000⟩
    ⟨"pkg".toList,
      [⟨"a_test.go".toList, [], [.funcDecl (some "TestA".toList) 5 []]⟩,
       ⟨"util.go".toList, [], [.funcDecl (some "TestHelper".toList) 9 []]⟩]⟩
    (by simp) (by decide) (by decide) (by decide)
  rw [h]
  decide

/-- Claim C10: the reporting walk of the no-import path runs over every
FuncDecl of every file of the unit with no test-file suffix check — a
Test-named function in a non-test file is reported whenever its file is not
excluded by pattern — while the per-file extraction path skips non-test files
entirely, contributing an empty result. -/
theorem C10_no_import_walk_ignores_test_suffix (o : RegexOracle) (config : Config)
    (p : Pass) (reason : Str) (f : File) (galias : Str)
    (hf : isTestFile f.filename = false) :
    reportUncoveredTestFunctionsWithContext o none 1 p config reason =
      ((passFuncDecls p).filterMap (fun fd =>
        match fd.1 with
        | some nm =>
          if isTestFunction nm && !shouldExcludeFileWithConfig o fd.2.2 config then
            some ⟨fd.2.1, diagMsg nm reason⟩
          else none
        | none => none), .ok) ∧
    processFileForAnalysis f galias = emptyAnalysisResult := by
  constructor
  · rw [reportUncoveredTestFunctionsWithContext]
    simp only [ctxDoneAt, Bool.false_eq_true, if_false]
    rw [reportWalkCtx_none]
  · simp [processFileForAnalysis, hf]

theorem C10_witness :
    isTestFile "main.go".toList = false ∧
    reportUncoveredTestFunctionsWithContext ⟨fun _ => none⟩ none 1
      ⟨"pkg".toList, [⟨"main.go".toList, [], [.funcDecl (some "TestInMain".toList) 2 []]⟩]⟩
      ⟨[], [], 4, 1000⟩ msgNotImported =
      (([(⟨"main.go".toList, [], [.funcDecl (some "TestInMain".toList) 2 []]⟩ : File)].foldr
          (fun f acc =>
            (funcDeclsList f.decls).map (fun q => (q.1, q.2, f.filename)) ++ acc) []).filterMap
        (fun fd =>
          match fd.1 with
          | some nm =>
            if isTestFunction nm &&
                !shouldExcludeFileWithConfig ⟨fun _ => none⟩ fd.2.2 ⟨[], [], 4, 1000⟩ then
              some ⟨fd.2.1, diagMsg nm msgNotImported⟩
            else none
          | none => none), .ok) ∧
    processFileForAnalysis ⟨"main.go".toList, [], [.funcDecl (some "TestInMain".toList) 2 []]⟩
      "goleak".toList = emptyAnalysisResult := by
  have h := C10_no_import_walk_ignores_test_suffix ⟨fun _ => none⟩ ⟨[], [], 4, 1000⟩
    ⟨"pkg".toList, [⟨"main.go".toList, [], [.funcDecl (some "TestInMain".toList) 2 []]⟩]⟩
    msgNotImported ⟨"main.go".toList, [], [.funcDecl (some "TestInMain".toList) 2 []]⟩
    "goleak".toList (by decide)
  exact ⟨by decide, h.1, h.2⟩

/-- Claim C1 amended: with the library imported and no recorded
TestMain-plus-VerifyTestMain coverage, run emits exactly one diagnostic (at
the function's position, with the literal message template) for every
recorded test function that is neither defer-covered nor in a pattern-excluded
file, and nothing for covered or excluded ones; the recorded test functions
are the Test-named declarations of the unit's *test files* (non-test files are
skipped by extraction), and the reason is "TestMain exists but doesn't call
goleak.VerifyTestMain" precisely when some *test file* declares TestMain, else
"missing defer goleak.VerifyNone(t)". -/
theorem C1_amended (o : RegexOracle) (config : Config) (p : Pass) (r : AnalysisResult)
    (hr : r = analyzeTestFunctionsPure (getGoleakAlias p.files) p.files)
    (hfiles : p.files ≠ [])
    (hpkg : shouldExcludePackage o p.pkgPath config = false)
    (htf : hasNonExcludedTestFiles o p config = true)
    (hne : getGoleakAlias p.files ≠ [])
    (hnc : (r.hasTestMain && r.hasVerifyTestMain) = false) :
    run o none config p =
      (r.testFuncs.filterMap (fun tf =>
        if r.funcsCoveredByDefer.contains tf.name then none
        else if shouldExcludeFileWithConfig o tf.filename config then none
        else some ⟨tf.pos, diagMsg tf.name
          (if r.hasTestMain && !r.hasVerifyTestMain then msgTestMainNoVerify
           else msgMissingDefer)⟩), .ok) ∧
    r.testFuncs =
      p.files.flatMap (fun f =>
        if isTestFile f.filename then collectTestsList f.filename f.decls else []) ∧
    r.hasTestMain =
      p.files.any (fun f => isTestFile f.filename && hasTestMainDeclList f.decls) := by
  subst hr
  have h0 : p.files.isEmpty = false := by
    cases h : p.files with
    | nil => exact absurd h hfiles
    | cons a l => rfl
  have hga : (getGoleakAlias p.files).isEmpty = false := by
    cases h : getGoleakAlias p.files with
    | nil => exact absurd h hne
    | cons a l => rfl
  refine ⟨?_, pure_testFuncs _ _, pure_hasTestMain _ _⟩
  rw [run]
  simp only [h0, Bool.false_eq_true, if_false, ctxDoneAt, hpkg, htf, Bool.not_true, hga,
    analyzeSeqCtx_none_pure, hnc]
  rw [reportLoopCtx_none]

/-- Claim C1, counterexample: the unit has a goleak-importing test file with
one uncovered test function, and a *non-test* file helper.go declaring a
TestMain that calls nothing.  A TestMain function exists in the unit and no
TestMain calls the verify-all target, so the claim mandates the reason
"TestMain exists but doesn't call goleak.VerifyTestMain"; the code never
extracts TestMain from a non-test file (hasVerifyTestMain and hasTestMain stay
false) and reports "missing defer goleak.VerifyNone(t)" instead. -/
theorem C1_counterexample :
    unitContainsFuncNamed
      ⟨"pkg".toList,
        [⟨"a_test.go".toList, [⟨none, some goleakUberPath⟩],
          [.funcDecl (some "TestFoo".toList) 1 []]⟩,
         ⟨"helper.go".toList, [], [.funcDecl (some "TestMain".toList) 7 []]⟩]⟩
      "TestMain".toList = true ∧
    (analyzeTestFunctionsPure "goleak".toList
      [⟨"a_test.go".toList, [⟨none, some goleakUberPath⟩],
        [.funcDecl (some "TestFoo".toList) 1 []]⟩,
       ⟨"helper.go".toList, [], [.funcDecl (some "TestMain".toList) 7 []]⟩]).hasVerifyTestMain
      = false ∧
    run ⟨fun _ => none⟩ none ⟨[], [], 4, 1000⟩
      ⟨"pkg".toList,
        [⟨"a_test.go".toList, [⟨none, some goleakUberPath⟩],
          [.funcDecl (some "TestFoo".toList) 1 []]⟩,
         ⟨"helper.go".toList, [], [.funcDecl (some "TestMain".toList) 7 []]⟩]⟩ =
      ([⟨1, diagMsg "TestFoo".toList msgMissingDefer⟩], .ok) := by
  refine ⟨by decide, by decide, by decide⟩

theorem C1_witness :
    (([⟨"w_test.go".toList, [⟨none, some goleakUberPath⟩],
        [.funcDecl (some "TestU".toList) 3 [],
         .funcDecl (some "TestC".toList) 4
           [.deferStmt (.selector ⟨.xIdent "goleak".toList, "VerifyNone".toList⟩)
             [.callExpr (.selector ⟨.xIdent "goleak".toList, "VerifyNone".toList⟩) []]]]⟩] :
      List File) ≠ []) ∧
    shouldExcludePackage ⟨fun _ => none⟩ "pkg".toList ⟨[], [], 4, 1000⟩ = false ∧
    hasNonExcludedTestFiles ⟨fun _ => none⟩
      ⟨"pkg".toList,
        [⟨"w_test.go".toList, [⟨none, some goleakUberPath⟩],
          [.funcDecl (some "TestU".toList) 3 [],
           .funcDecl (some "TestC".toList) 4
             [.deferStmt (.selector ⟨.xIdent "goleak".toList, "VerifyNone".toList⟩)
               [.callExpr (.selector ⟨.xIdent "goleak".toList, "VerifyNone".toList⟩) []]]]⟩]⟩
      ⟨[], [], 4, 1000⟩ = true ∧
    run ⟨fun _ => none⟩ none ⟨[], [], 4, 1000⟩
      ⟨"pkg".toList,
        [⟨"w_test.go".toList, [⟨none, some goleakUberPath⟩],
          [.funcDecl (some "TestU".toList) 3 [],
           .funcDecl (some "TestC".toList) 4
             [.deferStmt (.selector ⟨.xIdent "goleak".toList, "VerifyNone".toList⟩)
               [.callExpr (.selector ⟨.xIdent "goleak".toList, "VerifyNone".toList⟩) []]]]⟩]⟩ =
      ([⟨3, diagMsg "TestU".toList msgMissingDefer⟩], .ok) := by
  refine ⟨by simp, by decide, by decide, ?_⟩
  have h := (C1_amended ⟨fun _ => none⟩ ⟨[], [], 4, 1000⟩
    ⟨"pkg".toList,
      [⟨"w_test.go".toList, [⟨none, some goleakUberPath⟩],
        [.funcDecl (some "TestU".toList) 3 [],
         .funcDecl (some "TestC".toList) 4
           [.deferStmt (.selector ⟨.xIdent "goleak".toList, "VerifyNone".toList⟩)
             [.callExpr (.selector ⟨.xIdent "goleak".toList, "VerifyNone".toList⟩) []]]]⟩]⟩
    _ rfl (by simp) (by decide) (by decide) (by decide) (by decide)).1
  rw [h]
  decide

theorem walkList_append (galias filename : Str) (st : ExtractState) (l1 l2 : List Node) :
    walkList galias filename st (l1 ++ l2) =
      walkList galias filename (walkList galias filename st l1) l2 := by
  induction l1 generalizing st with
  | nil => rfl
  | cons n rest ih =>
    rw [List.cons_append, walkList, walkList, ih]

theorem walkNode_testMain_verify (galias filename : Str) (st : ExtractState)
    (pos : Nat) (body : List Node)
    (hnf : listHasNoFuncDecl body = true) (hvc : listHasVerifyCall galias body = true) :
    (walkNode galias filename st (.funcDecl (some testMainFunc) pos body)).res.hasTestMain
        = true ∧
      (walkNode galias filename st
        (.funcDecl (some testMainFunc) pos body)).res.hasVerifyTestMain = true := by
  rw [walkNode, stepFuncDecl_eq]
  simp only [beq_self_eq_true, if_true]
  have hv := walkList_verify galias filename
    ⟨[], true, { st.res with hasTestMain := true }⟩ body rfl hnf
  constructor
  · rw [walkList_hasTestMain]
    simp
  · rw [hv.2]
    simp [hvc]

theorem processFile_testMainVerify (f : File) (galias : Str)
    (htfile : isTestFile f.filename = true)
    (hd : fileHasTestMainWithVerify galias f = true) :
    (processFileForAnalysis f galias).hasTestMain = true ∧
      (processFileForAnalysis f galias).hasVerifyTestMain = true := by
  rw [processFileForAnalysis]
  simp only [htfile, Bool.not_true, Bool.false_eq_true, if_false]
  obtain ⟨n, hmem, hn⟩ := List.any_eq_true.mp hd
  cases n with
  | funcDecl name pos body =>
    cases name with
    | some nm =>
      simp only [Bool.and_eq_true, beq_iff_eq] at hn
      obtain ⟨⟨hnm, hnf⟩, hvc⟩ := hn
      subst hnm
      obtain ⟨s, t, hst⟩ := List.append_of_mem hmem
      rw [hst, walkList_append, walkList]
      have hflags := walkNode_testMain_verify galias f.filename
        (walkList galias f.filename ⟨[], false, emptyAnalysisResult⟩ s) pos body hnf hvc
      constructor
      · rw [walkList_hasTestMain, hflags.1]
        rfl
      · exact walkList_hVTM_mono galias f.filename _ t hflags.2
    | none => simp at hn
  | funcLit children => simp at hmem hn
  | callExpr fn children => simp at hmem hn
  | deferStmt fn children => simp at hmem hn
  | otherNode children => simp at hmem hn

theorem pure_flags_of_file (galias : Str) (files : List File) (f : File)
    (hmem : f ∈ files)
    (h1 : (processFileForAnalysis f galias).hasTestMain = true)
    (h2 : (processFileForAnalysis f galias).hasVerifyTestMain = true) :
    ((analyzeTestFunctionsPure galias files).hasTestMain &&
      (analyzeTestFunctionsPure galias files).hasVerifyTestMain) = true := by
  rw [analyzeTestFunctionsPure, foldl_merge_hasTestMain, foldl_merge_hVTM]
  simp only [emptyAnalysisResult, Bool.false_or, Bool.and_eq_true, List.any_eq_true]
  exact ⟨⟨f, hmem, h1⟩, ⟨f, hmem, h2⟩⟩

/-- Claim C2 amended: if some *test file* of the unit declares a function
named exactly TestMain whose body contains a call to the resolved alias's
VerifyTestMain (and the unit is analysed: nonempty, not excluded, with a
non-excluded test file and the library imported), then run emits no
diagnostics at all, regardless of each test function's own defer coverage or
file exclusion status.  A TestMain in a non-test file does not suppress
reporting (see the counterexample). -/
theorem C2_amended (o : RegexOracle) (config : Config) (p : Pass) (f : File)
    (hmem : f ∈ p.files)
    (htfile : isTestFile f.filename = true)
    (hpkg : shouldExcludePackage o p.pkgPath config = false)
    (htf : hasNonExcludedTestFiles o p config = true)
    (hne : getGoleakAlias p.files ≠ [])
    (hd : fileHasTestMainWithVerify (getGoleakAlias p.files) f = true) :
    run o none config p = ([], .ok) := by
  have hfiles : p.files ≠ [] := List.ne_nil_of_mem hmem
  have h0 : p.files.isEmpty = false := by
    cases h : p.files with
    | nil => exact absurd h hfiles
    | cons a l => rfl
  have hga : (getGoleakAlias p.files).isEmpty = false := by
    cases h : getGoleakAlias p.files with
    | nil => exact absurd h hne
    | cons a l => rfl
  have hpf := processFile_testMainVerify f (getGoleakAlias p.files) htfile hd
  have hflags := pure_flags_of_file (getGoleakAlias p.files) p.files f hmem hpf.1 hpf.2
  rw [run]
  simp only [h0, Bool.false_eq_true, if_false, ctxDoneAt, hpkg, htf, Bool.not_true, hga,
    analyzeSeqCtx_none_pure, hflags, if_true]

/-- Claim C2, counterexample: the unit contains a TestMain whose body calls
goleak.VerifyTestMain — but it sits in the non-test file main.go, so the
extraction never sees it and the uncovered test function of the test file is
still reported; the claim demands no diagnostics for the unit. -/
theorem C2_counterexample :
    fileHasTestMainWithVerify "goleak".toList
      ⟨"main.go".toList, [],
        [.funcDecl (some "TestMain".toList) 3
          [.callExpr (.selector ⟨.xIdent "goleak".toList, "VerifyTestMain".toList⟩) []]]⟩
      = true ∧
    getGoleakAlias
      [⟨"a_test.go".toList, [⟨none, some goleakUberPath⟩],
        [.funcDecl (some "TestBaz".toList) 1 []]⟩,
       ⟨"main.go".toList, [],
        [.funcDecl (some "TestMain".toList) 3
          [.callExpr (.selector ⟨.xIdent "goleak".toList, "VerifyTestMain".toList⟩) []]]⟩] =
      "goleak".toList ∧
    run ⟨fun _ => none⟩ none ⟨[], [], 4, 1000⟩
      ⟨"pkg".toList,
        [⟨"a_test.go".toList, [⟨none, some goleakUberPath⟩],
          [.funcDecl (some "TestBaz".toList) 1 []]⟩,
         ⟨"main.go".toList, [],
          [.funcDecl (some "TestMain".toList) 3
            [.callExpr (.selector ⟨.xIdent "goleak".toList, "VerifyTestMain".toList⟩) []]]⟩]⟩ =
      ([⟨1, diagMsg "TestBaz".toList msgMissingDefer⟩], .ok) := by
  refine ⟨by decide, by decide, by decide⟩

theorem C2_witness :
    ((⟨"m_test.go".toList, [⟨none, some goleakUberPath⟩],
        [.funcDecl (some "TestMain".toList) 1
          [.callExpr (.selector ⟨.xIdent "goleak".toList, "VerifyTestMain".toList⟩) []],
         .funcDecl (some "TestFoo".toList) 2 []]⟩ : File) ∈
      [(⟨"m_test.go".toList, [⟨none, some goleakUberPath⟩],
        [.funcDecl (some "TestMain".toList) 1
          [.callExpr (.selector ⟨.xIdent "goleak".toList, "VerifyTestMain".toList⟩) []],
         .funcDecl (some "TestFoo".toList) 2 []]⟩ : File)]) ∧
    isTestFile "m_test.go".toList = true ∧
    run ⟨fun _ => none⟩ none ⟨[], [], 4, 1000⟩
      ⟨"pkg".toList,
        [⟨"m_test.go".toList, [⟨none, some goleakUberPath⟩],
          [.funcDecl (some "TestMain".toList) 1
            [.callExpr (.selector ⟨.xIdent "goleak".toList, "VerifyTestMain".toList⟩) []],
           .funcDecl (some "TestFoo".toList) 2 []]⟩]⟩ =
      ([], .ok) := by
  refine ⟨List.mem_singleton.mpr rfl, by decide, ?_⟩
  exact C2_amended ⟨fun _ => none⟩ ⟨[], [], 4, 1000⟩
    ⟨"pkg".toList,
      [⟨"m_test.go".toList, [⟨none, some goleakUberPath⟩],
        [.funcDecl (some "TestMain".toList) 1
          [.callExpr (.selector ⟨.xIdent "goleak".toList, "VerifyTestMain".toList⟩) []],
         .funcDecl (some "TestFoo".toList) 2 []]⟩]⟩
    ⟨"m_test.go".toList, [⟨none, some goleakUberPath⟩],
      [.funcDecl (some "TestMain".toList) 1
        [.callExpr (.selector ⟨.xIdent "goleak".toList, "VerifyTestMain".toList⟩) []],
       .funcDecl (some "TestFoo".toList) 2 []]⟩
    (List.mem_singleton.mpr rfl) (by decide) (by decide) (by decide) (by decide) (by decide)

/-- Claim C5 amended: the current-test-function context is reset to empty on
entering any function *declaration* that is not a test function or TestMain,
so a deferred VerifyNone inside such a declaration (whose body, as in any Go
program, contains no nested declaration) covers no test function; a deferred
alias.VerifyNone marks exactly the context's test function, and nothing when
the context is empty; but a function *literal* does not touch the context at
all, so a deferred VerifyNone inside a literal nested in a test function still
covers that test function (see the counterexample). -/
theorem C5_amended (galias filename : Str) :
    (∀ (st : ExtractState) (nm : Str) (pos : Nat) (body : List Node),
      isTestFunction nm = false → nm ≠ testMainFunc → listHasNoFuncDecl body = true →
      (walkNode galias filename st
        (.funcDecl (some nm) pos body)).res.funcsCoveredByDefer =
        st.res.funcsCoveredByDefer) ∧
    (∀ (st : ExtractState) (children : List Node),
      walkNode galias filename st (.funcLit children) =
        walkList galias filename st children) ∧
    (∀ (st : ExtractState) (sel : SelectorExpr),
      isGoleakCall sel verifyNone galias = true → st.currentTestFunc ≠ [] →
      (stepDeferStmt galias st (.selector sel)).res.funcsCoveredByDefer =
        st.res.funcsCoveredByDefer ++ [st.currentTestFunc]) ∧
    (∀ (st : ExtractState) (fn : FunExpr),
      st.currentTestFunc = [] → stepDeferStmt galias st fn = st) := by
  refine ⟨?_, ?_, ?_, ?_⟩
  · intro st nm pos body hnt hnm hnf
    rw [walkNode, stepFuncDecl_eq]
    have hb : (nm == testMainFunc) = false := by
      rw [beq_eq_false_iff_ne]
      exact hnm
    simp only [hb, Bool.false_eq_true, if_false, hnt]
    exact (walkList_covered_empty galias filename ⟨[], false, st.res⟩ body rfl hnf).2
  · intro st children
    rw [walkNode]
  · intro st sel hcall hcur
    rw [stepDeferStmt_eq]
    have hne : st.currentTestFunc.isEmpty = false := by
      cases h : st.currentTestFunc with
      | nil => exact absurd h hcur
      | cons a l => rfl
    simp [hne, deferIsVerifyNone, hcall]
  · intro st fn hcur
    rw [stepDeferStmt_eq]
    obtain ⟨ctf, itm, res⟩ := st
    simp only at hcur
    subst hcur
    simp

/-- Claim C5, counterexample: a deferred goleak.VerifyNone inside a function
literal nested in TestNested.  The ast.Inspect switch has no FuncLit case, so
the current-test-function context is not reset on entering the literal, and
the extraction marks TestNested as defer-covered — the claim says a deferred
VerifyNone inside a nested function literal covers no test function. -/
theorem C5_counterexample :
    (processFileForAnalysis
      ⟨"c_test.go".toList, [⟨none, some goleakUberPath⟩],
        [.funcDecl (some "TestNested".toList) 1
          [.funcLit
            [.deferStmt (.selector ⟨.xIdent "goleak".toList, "VerifyNone".toList⟩)
              [.callExpr (.selector ⟨.xIdent "goleak".toList, "VerifyNone".toList⟩) []]]]]⟩
      "goleak".toList).funcsCoveredByDefer = ["TestNested".toList] := by
  decide

theorem C5_witness :
    (isTestFunction "setupHelper".toList = false ∧
      "setupHelper".toList ≠ testMainFunc ∧
      listHasNoFuncDecl
        [.deferStmt (.selector ⟨.xIdent "goleak".toList, "VerifyNone".toList⟩) []] = true ∧
      (ExtractState.res (walkNode "goleak".toList "w_test.go".toList
          ⟨[], false, emptyAnalysisResult⟩
          (.funcDecl (some "setupHelper".toList) 0
            [.deferStmt (.selector ⟨.xIdent "goleak".toList,
              "VerifyNone".toList⟩) []]))).funcsCoveredByDefer =
        emptyAnalysisResult.funcsCoveredByDefer) ∧
    (walkNode "goleak".toList "w_test.go".toList
        ⟨"TestX".toList, false, emptyAnalysisResult⟩ (.funcLit []) =
      walkList "goleak".toList "w_test.go".toList
        ⟨"TestX".toList, false, emptyAnalysisResult⟩ []) ∧
    (isGoleakCall ⟨.xIdent "goleak".toList, "VerifyNone".toList⟩ verifyNone
        "goleak".toList = true ∧
      ("TestX".toList : Str) ≠ [] ∧
      (stepDeferStmt "goleak".toList ⟨"TestX".toList, false, emptyAnalysisResult⟩
        (.selector ⟨.xIdent "goleak".toList, "VerifyNone".toList⟩)).res.funcsCoveredByDefer =
        emptyAnalysisResult.funcsCoveredByDefer ++ ["TestX".toList]) ∧
    (stepDeferStmt "goleak".toList ⟨[], false, emptyAnalysisResult⟩
        (.selector ⟨.xIdent "goleak".toList, "VerifyNone".toList⟩) =
      ⟨[], false, emptyAnalysisResult⟩) := by
  refine ⟨⟨by decide, by decide, by decide, ?_⟩, ?_, ⟨by decide, by decide, ?_⟩, ?_⟩
  · exact (C5_amended "goleak".toList "w_test.go".toList).1
      ⟨[], false, emptyAnalysisResult⟩ "setupHelper".toList 0
      [.deferStmt (.selector ⟨.xIdent "goleak".toList, "VerifyNone".toList⟩) []]
      (by decide) (by decide) (by decide)
  · exact (C5_amended "goleak".toList "w_test.go".toList).2.1
      ⟨"TestX".toList, false, emptyAnalysisResult⟩ []
  · exact (C5_amended "goleak".toList "w_test.go".toList).2.2.1
      ⟨"TestX".toList, false, emptyAnalysisResult⟩
      ⟨.xIdent "goleak".toList, "VerifyNone".toList⟩ (by decide) (by decide)
  · exact (C5_amended "goleak".toList "w_test.go".toList).2.2.2
      ⟨[], false, emptyAnalysisResult⟩
      (.selector ⟨.xIdent "goleak".toList, "VerifyNone".toList⟩) rfl

theorem contains_mem_iff {α : Type} [BEq α] [LawfulBEq α] (l : List α) (c : α) :
    l.contains c = true ↔ c ∈ l := by
  simp [List.contains, List.elem_eq_mem]

theorem perm_any_eq {α : Type} (q : α → Bool) {l1 l2 : List α} (h : l1.Perm l2) :
    l1.any q = l2.any q := by
  rw [Bool.eq_iff_iff]
  simp only [List.any_eq_true]
  exact ⟨fun ⟨x, hx, hq⟩ => ⟨x, h.subset hx, hq⟩, fun ⟨x, hx, hq⟩ => ⟨x, h.symm.subset hx, hq⟩⟩

/-- Claim C8: for any unit, alias and worker count, the concurrent analysis
path — whose workers merge per-file extraction results in completion order,
modelled as an arbitrary permutation files' of the sequential file order — and
the sequential path produce the same merged result up to ordering: equal
hasTestMain and hasVerifyTestMain flags, the same defer-covered name set, a
permutation of the same recorded test functions, and a diagnostic list for
the per-function reporting loop that is a permutation (hence the same set) of
the sequential one. -/
theorem C8_scheduling_equivalence (o : RegexOracle) (config : Config) (galias : Str)
    (files files' : List File) (hperm : files.Perm files') :
    (analyzeTestFunctionsPure galias files).hasTestMain =
      (analyzeTestFunctionsPure galias files').hasTestMain ∧
    (analyzeTestFunctionsPure galias files).hasVerifyTestMain =
      (analyzeTestFunctionsPure galias files').hasVerifyTestMain ∧
    (∀ x : Str, x ∈ (analyzeTestFunctionsPure galias files).funcsCoveredByDefer ↔
      x ∈ (analyzeTestFunctionsPure galias files').funcsCoveredByDefer) ∧
    (analyzeTestFunctionsPure galias files).testFuncs.Perm
      (analyzeTestFunctionsPure galias files').testFuncs ∧
    (reportLoopCtx o none config (analyzeTestFunctionsPure galias files).hasTestMain
      (analyzeTestFunctionsPure galias files).hasVerifyTestMain
      (analyzeTestFunctionsPure galias files).funcsCoveredByDefer 0
      (analyzeTestFunctionsPure galias files).testFuncs).1.Perm
      (reportLoopCtx o none config (analyzeTestFunctionsPure galias files').hasTestMain
        (analyzeTestFunctionsPure galias files').hasVerifyTestMain
        (analyzeTestFunctionsPure galias files').funcsCoveredByDefer 0
        (analyzeTestFunctionsPure galias files').testFuncs).1 := by
  have hTM : (analyzeTestFunctionsPure galias files).hasTestMain =
      (analyzeTestFunctionsPure galias files').hasTestMain := by
    rw [analyzeTestFunctionsPure, analyzeTestFunctionsPure, foldl_merge_hasTestMain,
      foldl_merge_hasTestMain]
    rw [perm_any_eq _ hperm]
  have hVTM : (analyzeTestFunctionsPure galias files).hasVerifyTestMain =
      (analyzeTestFunctionsPure galias files').hasVerifyTestMain := by
    rw [analyzeTestFunctionsPure, analyzeTestFunctionsPure, foldl_merge_hVTM,
      foldl_merge_hVTM]
    rw [perm_any_eq _ hperm]
  have hcovPerm : (analyzeTestFunctionsPure galias files).funcsCoveredByDefer.Perm
      (analyzeTestFunctionsPure galias files').funcsCoveredByDefer := by
    rw [analyzeTestFunctionsPure, analyzeTestFunctionsPure, foldl_merge_covered,
      foldl_merge_covered]
    simpa [emptyAnalysisResult] using
      hperm.flatMap_right (fun f => (processFileForAnalysis f galias).funcsCoveredByDefer)
  have hcov : ∀ x : Str, x ∈ (analyzeTestFunctionsPure galias files).funcsCoveredByDefer ↔
      x ∈ (analyzeTestFunctionsPure galias files').funcsCoveredByDefer :=
    fun x => hcovPerm.mem_iff
  have htfs : (analyzeTestFunctionsPure galias files).testFuncs.Perm
      (analyzeTestFunctionsPure galias files').testFuncs := by
    rw [analyzeTestFunctionsPure, analyzeTestFunctionsPure, foldl_merge_testFuncs,
      foldl_merge_testFuncs]
    simpa [emptyAnalysisResult] using
      hperm.flatMap_right (fun f => (processFileForAnalysis f galias).testFuncs)
  refine ⟨hTM, hVTM, hcov, htfs, ?_⟩
  rw [reportLoopCtx_none, reportLoopCtx_none]
  have hcontains : ∀ nm : Str,
      (analyzeTestFunctionsPure galias files).funcsCoveredByDefer.contains nm =
        (analyzeTestFunctionsPure galias files').funcsCoveredByDefer.contains nm := by
    intro nm
    rw [Bool.eq_iff_iff, contains_mem_iff, contains_mem_iff]
    exact hcov nm
  simp only [hTM, hVTM, hcontains]
  exact htfs.filterMap _

theorem C8_witness :
    (([(⟨"a_test.go".toList, [⟨none, some goleakUberPath⟩],
          [.funcDecl (some "TestA".toList) 1 []]⟩ : File),
        ⟨"b_test.go".toList, [], [.funcDecl (some "TestB".toList) 2 []]⟩] : List File).Perm
      [⟨"b_test.go".toList, [], [.funcDecl (some "TestB".toList) 2 []]⟩,
       ⟨"a_test.go".toList, [⟨none, some goleakUberPath⟩],
          [.funcDecl (some "TestA".toList) 1 []]⟩]) ∧
    (analyzeTestFunctionsPure "goleak".toList
        [⟨"a_test.go".toList, [⟨none, some goleakUberPath⟩],
          [.funcDecl (some "TestA".toList) 1 []]⟩,
         ⟨"b_test.go".toList, [], [.funcDecl (some "TestB".toList) 2 []]⟩]).testFuncs.Perm
      (analyzeTestFunctionsPure "goleak".toList
        [⟨"b_test.go".toList, [], [.funcDecl (some "TestB".toList) 2 []]⟩,
         ⟨"a_test.go".toList, [⟨none, some goleakUberPath⟩],
          [.funcDecl (some "TestA".toList) 1 []]⟩]).testFuncs := by
  have hp : ([(⟨"a_test.go".toList, [⟨none, some goleakUberPath⟩],
        [.funcDecl (some "TestA".toList) 1 []]⟩ : File),
      ⟨"b_test.go".toList, [], [.funcDecl (some "TestB".toList) 2 []]⟩] : List File).Perm
      [⟨"b_test.go".toList, [], [.funcDecl (some "TestB".toList) 2 []]⟩,
       ⟨"a_test.go".toList, [⟨none, some goleakUberPath⟩],
          [.funcDecl (some "TestA".toList) 1 []]⟩] :=
    List.Perm.swap _ _ _
  exact ⟨hp, (C8_scheduling_equivalence ⟨fun _ => none⟩ ⟨[], [], 4, 1000⟩ "goleak".toList
    _ _ hp).2.2.2.1⟩

theorem ctxDoneAt_none (i : Nat) : ctxDoneAt none i = false := rfl

theorem reportLoopCtx_prefix (o : RegexOracle) (config : Config) (hTM hVTM : Bool)
    (covered : List Str) (k : Nat) (tfs : List TestFuncInfo) (c : Nat) :
    (reportLoopCtx o (some k) config hTM hVTM covered c tfs).1 <+:
      (reportLoopCtx o none config hTM hVTM covered c tfs).1 := by
  induction tfs generalizing c with
  | nil => exact List.prefix_refl _
  | cons tf rest ih =>
    rw [reportLoopCtx, reportLoopCtx]
    simp only [ctxDoneAt_none, Bool.false_eq_true, if_false]
    by_cases hd : ctxDoneAt (some k) c = true
    · simp only [hd, if_true]
      exact List.nil_prefix
    · simp only [Bool.not_eq_true] at hd
      simp only [hd, Bool.false_eq_true, if_false]
      by_cases h1 : covered.contains tf.name = true
      · simp only [h1, if_true]
        exact ih (c + 1)
      · simp only [Bool.not_eq_true] at h1
        simp only [h1, Bool.false_eq_true, if_false]
        by_cases h2 : shouldExcludeFileWithConfig o tf.filename config = true
        · simp only [h2, Bool.not_true, Bool.false_eq_true, if_false]
          exact ih (c + 1)
        · simp only [Bool.not_eq_true] at h2
          simp only [h2, Bool.not_false, if_true]
          obtain ⟨t, ht⟩ := ih (c + 1)
          exact ⟨t, by rw [List.cons_append, ht]⟩

theorem reportWalkCtx_prefix (o : RegexOracle) (config : Config) (reason : Str)
    (k : Nat) (fds : List (Option Str × Nat × Str)) (c : Nat) :
    reportWalkCtx o (some k) config reason c fds <+:
      reportWalkCtx o none config reason c fds := by
  induction fds generalizing c with
  | nil => exact List.prefix_refl _
  | cons fd rest ih =>
    rw [reportWalkCtx, reportWalkCtx]
    simp only [ctxDoneAt_none, Bool.false_eq_true, if_false]
    by_cases hd : ctxDoneAt (some k) c = true
    · simp only [hd, if_true]
      exact List.nil_prefix
    · simp only [Bool.not_eq_true] at hd
      simp only [hd, Bool.false_eq_true, if_false]
      cases h : fd.1 with
      | none => exact ih (c + 1)
      | some nm =>
        by_cases h2 : (isTestFunction nm && !shouldExcludeFileWithConfig o fd.2.2 config) = true
        · simp only [h2, if_true]
          obtain ⟨t, ht⟩ := ih (c + 1)
          exact ⟨t, by rw [List.cons_append, ht]⟩
        · simp only [Bool.not_eq_true] at h2
          simp only [h2, Bool.false_eq_true, if_false]
          exact ih (c + 1)

theorem analyzeSeqCtx_some_cases (galias : Str) (k : Nat) (files : List File)
    (c : Nat) (acc : AnalysisResult) :
    analyzeSeqCtx (some k) galias c acc files = none ∨
      analyzeSeqCtx (some k) galias c acc files = analyzeSeqCtx none galias c acc files := by
  induction files generalizing c acc with
  | nil => right; rfl
  | cons f rest ih =>
    by_cases hd : ctxDoneAt (some k) c = true
    · left
      rw [analyzeSeqCtx]
      simp [hd]
    · simp only [Bool.not_eq_true] at hd
      rcases ih (c + 1) (mergeResults acc (processFileForAnalysis f galias)) with h | h
      · left
        rw [analyzeSeqCtx]
        simp only [hd, Bool.false_eq_true, if_false]
        exact h
      · right
        rw [analyzeSeqCtx, analyzeSeqCtx]
        simp only [hd, ctxDoneAt_none, Bool.false_eq_true, if_false]
        exact h

/-- Claim C9 amended: when the deadline expires during the analysis of a unit,
run stops emitting diagnostics at the first observed expiry — the diagnostics
actually emitted form a (possibly empty, possibly complete) prefix of the
unit's full diagnostic set, not necessarily nothing; in the per-function
evaluation path an expiry observed at a poll is returned as an error, while in
the no-import reporting walk an expiry after the semaphore is acquired only
cuts the walk short (see the counterexample for an expiry that returns an
error after emitting a strict nonempty prefix). -/
theorem C9_amended (o : RegexOracle) (config : Config) (p : Pass) (k : Nat) :
    (run o (some k) config p).1 <+: (run o none config p).1 := by
  simp only [run, ctxDoneAt_none, Bool.false_eq_true, if_false]
  by_cases h0 : p.files.isEmpty = true
  · simp only [h0, if_true]
    exact List.prefix_refl _
  · simp only [Bool.not_eq_true] at h0
    simp only [h0, Bool.false_eq_true, if_false]
    by_cases hd0 : ctxDoneAt (some k) 0 = true
    · simp only [hd0, if_true]
      exact List.nil_prefix
    · simp only [Bool.not_eq_true] at hd0
      simp only [hd0, Bool.false_eq_true, if_false]
      by_cases hpkg : shouldExcludePackage o p.pkgPath config = true
      · simp only [hpkg, if_true]
        exact List.prefix_refl _
      · simp only [Bool.not_eq_true] at hpkg
        simp only [hpkg, Bool.false_eq_true, if_false]
        by_cases htf : hasNonExcludedTestFiles o p config = true
        · simp only [htf, Bool.not_true, Bool.false_eq_true, if_false]
          by_cases hga : (getGoleakAlias p.files).isEmpty = true
          · simp only [hga, if_true, reportUncoveredTestFunctionsWithContext, ctxDoneAt_none,
              Bool.false_eq_true, if_false]
            by_cases hd1 : ctxDoneAt (some k) 1 = true
            · simp only [hd1, if_true]
              exact List.nil_prefix
            · simp only [Bool.not_eq_true] at hd1
              simp only [hd1, Bool.false_eq_true, if_false]
              exact reportWalkCtx_prefix o config msgNotImported k (passFuncDecls p) 2
          · simp only [Bool.not_eq_true] at hga
            simp only [hga, Bool.false_eq_true, if_false]
            by_cases hd1 : ctxDoneAt (some k) 1 = true
            · simp only [hd1, if_true]
              exact List.nil_prefix
            · simp only [Bool.not_eq_true] at hd1
              simp only [hd1, Bool.false_eq_true, if_false]
              rcases analyzeSeqCtx_some_cases (getGoleakAlias p.files) k p.files 2
                  emptyAnalysisResult with h | h
              · simp only [h]
                exact List.nil_prefix
              · rw [h, analyzeSeqCtx_none_pure]
                by_cases hfl : ((analyzeTestFunctionsPure (getGoleakAlias p.files)
                    p.files).hasTestMain &&
                    (analyzeTestFunctionsPure (getGoleakAlias p.files)
                      p.files).hasVerifyTestMain) = true
                · simp only [hfl, if_true]
                  exact List.prefix_refl _
                · simp only [Bool.not_eq_true] at hfl
                  simp only [hfl, Bool.false_eq_true, if_false]
                  exact reportLoopCtx_prefix o config _ _ _ k _ _
        · simp only [Bool.not_eq_true] at htf
          simp only [htf, Bool.not_false, if_true]
          exact List.prefix_refl _

/-- Claim C9, counterexample: a unit with one goleak-importing test file and
two uncovered test functions, under a deadline that expires at the poll before
the second report.  The run returns the deadline error AND has already emitted
the first diagnostic — a partial diagnostic set, where the claim requires that
an expiring unit emits no diagnostics at all. -/
theorem C9_counterexample :
    run ⟨fun _ => none⟩ (some 4) ⟨[], [], 4, 1000⟩
      ⟨"pkg".toList,
        [⟨"a_test.go".toList, [⟨none, some goleakUberPath⟩],
          [.funcDecl (some "TestA".toList) 1 [],
           .funcDecl (some "TestB".toList) 2 []]⟩]⟩ =
      ([⟨1, diagMsg "TestA".toList msgMissingDefer⟩], .ctxErr) ∧
    run ⟨fun _ => none⟩ none ⟨[], [], 4, 1000⟩
      ⟨"pkg".toList,
        [⟨"a_test.go".toList, [⟨none, some goleakUberPath⟩],
          [.funcDecl (some "TestA".toList) 1 [],
           .funcDecl (some "TestB".toList) 2 []]⟩]⟩ =
      ([⟨1, diagMsg "TestA".toList msgMissingDefer⟩,
        ⟨2, diagMsg "TestB".toList msgMissingDefer⟩], .ok) := by
  refine ⟨by decide, by decide⟩
